import Mathlib

/-!
# VPIC particle data subsystem: workload distribution, particle ids, annotations

A shallow embedding of the macros `DISTRIBUTE`, `PAD`, `INDEX_FORTRAN_3` and `INDEX_C_3`
of `src/util/util_base.h`, and of the records and the inline member functions of
`species_t` in `src/species_advance/species_advance_aos.h`, with the properties of the
specification proved about them.

Conventions of the embedding:

* A C `int` is a 32 bit two's complement integer.  Its values are integers (`Int`); `/`
  and `%` are the truncating `Int.tdiv` and `Int.tmod`.  In the macros, in
  `generate_particle_id` and in the size that `allocate_annotation_buffer` requests, a sum,
  difference or product that leaves the range wraps modulo `2^32` (`wrap32`), which is
  what the compiled code does where the C standard leaves the overflow undefined.  The
  element index of the annotation accessors is formed in the integers, and an access
  outside the buffer has no value.
* A `double` is an IEEE 754 binary64 number, held as the rational it denotes.  Every
  operation rounds its exact result to the nearest binary64 number, ties to even
  (`binary64`): no extended precision and no fused multiply-add.  Subnormal numbers are
  modelled; infinities are not, and no double computed from `int` operands here reaches
  `2^64`.  The cast `(int)x` truncates toward zero (`truncToInt`).
* A function that can abort or whose C behaviour is undefined returns `Except`.
* `float` is a type parameter `F`; the constant `NAN` and the float addition are
  parameters of the functions that use them.
* A record in memory is the sequence of the bytes of its fields, in the order of the
  declaration; the bytes of a scalar are given by a representation `repr_t`.
-/

namespace Vpic

/-! ## Definitions -/

/-- Rounding of a rational to the nearest integer, ties to the even integer. -/
def round_half_even (y : ℚ) : Int :=
  if y - ⌊y⌋ < 1 / 2 then ⌊y⌋
  else if 1 / 2 < y - ⌊y⌋ then ⌊y⌋ + 1
  else if ⌊y⌋ % 2 = 0 then ⌊y⌋ else ⌊y⌋ + 1

/-- The exponent of the binade of a binary64 operand: the `e` with `2^e ≤ |x| < 2^(e+1)`,
and `-1022`, the exponent of the subnormal numbers, below `2^-1022`. -/
def binade (x : ℚ) : Int := max (Int.log 2 |x|) (-1022)

/-- Rounding to IEEE 754 binary64, to nearest, ties to even: `x` is rounded to a whole
number of units in the last place of its binade, `2^(e - 52)` for a significand of 53
bits. -/
def binary64 (x : ℚ) : ℚ :=
  (round_half_even (x / 2 ^ (binade x - 52)) : ℚ) * 2 ^ (binade x - 52)

/-- The cast `(int)x` of a double: truncation toward zero. -/
def truncToInt (x : ℚ) : Int := Int.tdiv x.num x.den

/-- The value of an `int` expression whose exact result is `n`: the result wrapped into
`[-2^31, 2^31)`. -/
def wrap32 (n : Int) : Int := (n + 2 ^ 31) % 2 ^ 32 - 2 ^ 31

/-- The macro `DISTRIBUTE( N, b, p, P, i, n )` of `util_base.h`, for `int` arguments.  The
result is the pair `(i, n)`: the first item and the number of items assigned to
pipeline `p`.  The conversions `(double)_p` of an `int` are exact. -/
def DISTRIBUTE (N b p P : Int) : Int × Int :=
  let _t : ℚ := binary64 (((Int.tdiv N b : Int) : ℚ) / (P : ℚ))
  let _i : Int := wrap32 (b * truncToInt (binary64 (binary64 (_t * (p : ℚ)) + 1 / 2)))
  let n : Int :=
    if p = P then Int.tmod N b
    else wrap32 (wrap32 (b * truncToInt
      (binary64 (binary64 (_t * ((wrap32 (p + 1) : Int) : ℚ)) + 1 / 2))) - _i)
  (_i, n)

/-- The macro `DISTRIBUTE` under the reading "the double arithmetic is exact and `(int)` is
truncation": the same statements with no rounding and no wrapping. -/
def DISTRIBUTE_exact (N b p P : Int) : Int × Int :=
  let _t : ℚ := ((Int.tdiv N b : Int) : ℚ) / (P : ℚ)
  let _i : Int := b * truncToInt (_t * (p : ℚ) + 1 / 2)
  let n : Int :=
    if p = P then Int.tmod N b
    else b * truncToInt (_t * ((p + 1 : Int) : ℚ) + 1 / 2) - _i
  (_i, n)

/-- Closed form of the first item of pipeline `p` under the exact reading, used in the
proofs: the block size times `(N / b) * p / P` rounded to the nearest integer, halves
rounded up. -/
def blockStart (N b p P : Int) : Int := b * ((2 * (N / b) * p + P) / (2 * P))

/-- The number of blocks before pipeline `p` as the macro computes it for `q = N / b`
blocks: the value of `(int)(_t*(double)_p + 0.5)`, used in the proofs. -/
def share (q P p : Int) : Int :=
  truncToInt (binary64 (binary64 (binary64 ((q : ℚ) / (P : ℚ)) * (p : ℚ)) + 1 / 2))

/-- The ways a call of `generate_particle_id` can fail. -/
inductive fault_t where
  /-- The statement `assert(scale_factor > 0)` aborts. -/
  | assertion_failed
  /-- A conversion of a double to `size_t` is undefined: of `log10(max_np)`, minus infinity
  or not a number when `max_np <= 0`, or of an id that is negative or not below `2^64`. -/
  | undefined_conversion
  deriving DecidableEq, Repr

/-- The local `id_base = ceil( log10(max_np) )` of `generate_particle_id` for `max_np >= 1`,
the logarithm read as exact: `Nat.clog 10` is the upper integer logarithm in base ten
(theorem `id_base_eq_ceil_log10` relates it to the real logarithm). -/
def id_base (max_np : Int) : ℕ := Nat.clog 10 max_np.toNat

/-- The member function `species_t::generate_particle_id( i, max_np, scale_factor, this_rank )`,
with all four arguments given, in the order of the C++ signature.  `NDEBUG` tells
whether the macro `NDEBUG` is defined, which removes the `assert`.  The product
`this_rank*scale_factor` is an `int` product; `pow(10, id_base)`, the product with it
and the sum with `i` are doubles, `pow` taken as correctly rounded; the conversion of
the sum to `size_t` truncates, and is undefined outside `[0, 2^64)`. -/
def generate_particle_id (NDEBUG : Bool) (i max_np : Int) (scale_factor : Int)
    (this_rank : Int) : Except fault_t Int :=
  if NDEBUG = false ∧ ¬ scale_factor > 0 then Except.error fault_t.assertion_failed
  else if max_np < 1 then Except.error fault_t.undefined_conversion
  else
    let id_base : ℕ := id_base max_np
    let global_id : ℚ :=
      binary64 (binary64 (binary64 ((10 : ℚ) ^ id_base)
        * ((wrap32 (this_rank * scale_factor) : Int) : ℚ)) + (i : ℚ))
    if 0 ≤ truncToInt global_id ∧ truncToInt global_id < 2 ^ 64 then
      Except.ok (truncToInt global_id)
    else Except.error fault_t.undefined_conversion

/-- A call `generate_particle_id(i, max_np)` with two arguments: C++ fills in the defaults
`scale_factor = 1` and `this_rank = rank()`; `rank` is the value of `rank()` on the
calling process. -/
def generate_particle_id_2args (NDEBUG : Bool) (rank : Int) (i max_np : Int) :
    Except fault_t Int :=
  generate_particle_id NDEBUG i max_np 1 rank

/-- A call `generate_particle_id(i, max_np, a)` with three arguments: C++ binds the third
argument to the third parameter of the signature, `scale_factor`, and fills in the
default `this_rank = rank()`; `rank` is the value of `rank()` on the calling process. -/
def generate_particle_id_3args (NDEBUG : Bool) (rank : Int) (i max_np a : Int) :
    Except fault_t Int :=
  generate_particle_id NDEBUG i max_np a rank

/-- The record `particle_t`. -/
structure particle_t (F : Type) where
  dx : F
  dy : F
  dz : F
  i : Int
  ux : F
  uy : F
  uz : F
  w : F
  deriving DecidableEq, Repr

/-- The record `particle_mover_t`. -/
structure particle_mover_t (F : Type) where
  dispx : F
  dispy : F
  dispz : F
  i : Int
  deriving DecidableEq, Repr

/-- The class `species_t` with `VPIC_PARTICLE_ANNOTATION` defined.  Arrays owned by the
species are lists of their elements; ` p_annotation` holds the elements of the
allocated annotation buffer.  The pointers `g` and `next` are addresses. -/
structure species_t (F : Type) where
  name : String
  q : F
  m : F
  np : Int
  max_np : Int
  p : List (particle_t F)
  has_annotation : Int
  p_annotation : List F
  nm : Int
  max_nm : Int
  pm : List (particle_mover_t F)
  last_sorted : Int
  sort_interval : Int
  sort_out_of_place : Int
  partition : List Int
  g : Nat
  id : Int
  next : Nat
  deriving DecidableEq, Repr

/-- The outcome of a read access: the value obtained (`none` when the element lies outside
the buffer, which is undefined in C) and the indices of the buffer elements read. -/
structure load_t (F : Type) where
  value : Option F
  reads : List Int
  deriving DecidableEq, Repr

/-- Read of `buf[k]`. -/
def buffer_load {F : Type} (buf : List F) (k : Int) : Option F :=
  if 0 ≤ k then buf.get? k.toNat else none

/-- Write `buf[k] = v`; `none` when the element lies outside the buffer (undefined in C). -/
def buffer_store {F : Type} (buf : List F) (k : Int) (v : F) : Option (List F) :=
  if 0 ≤ k ∧ k < buf.length then some (buf.set k.toNat v) else none

/-- The member function `species_t::get_annotation`. -/
def get_annotation {F : Type} (NAN : F) (sp : species_t F)
    (particle_index slot_index : Int) : load_t F :=
  if particle_index < 0 ∨ particle_index ≥ sp.np then
    { value := some NAN, reads := [] }
  else if slot_index < 0 ∨ slot_index ≥ sp.has_annotation then
    { value := some NAN, reads := [] }
  else
    let k : Int := particle_index * sp.has_annotation + slot_index
    { value := buffer_load sp.p_annotation k, reads := [k] }

/-- The member function `species_t::set_annotation`; the result is the species after the
call, `none` when the write falls outside the buffer. -/
def set_annotation {F : Type} (sp : species_t F)
    (particle_index slot_index : Int) (v : F) : Option (species_t F) :=
  if particle_index < 0 ∨ particle_index ≥ sp.np then
    some sp
  else if slot_index < 0 ∨ slot_index ≥ sp.has_annotation then
    some sp
  else
    let k : Int := particle_index * sp.has_annotation + slot_index
    (buffer_store sp.p_annotation k v).map (fun buf => { sp with p_annotation := buf })

/-- The member function `species_t::increment_annotation`; `fadd` is the float addition of
the compound assignment `+=`. -/
def increment_annotation {F : Type} (fadd : F → F → F) (sp : species_t F)
    (particle_index slot_index : Int) (a : F) : Option (species_t F) :=
  if particle_index < 0 ∨ particle_index ≥ sp.np then
    some sp
  else if slot_index < 0 ∨ slot_index ≥ sp.has_annotation then
    some sp
  else
    let k : Int := particle_index * sp.has_annotation + slot_index
    (buffer_load sp.p_annotation k).bind (fun old =>
      (buffer_store sp.p_annotation k (fadd old a)).map
        (fun buf => { sp with p_annotation := buf }))

/-- A small species over `F = Option Int` (`none` standing for `NAN`), with two live
particles of a capacity of four and three annotation slots per particle. -/
def sample_species : species_t (Option Int) where
  name := "electron"
  q := some (-1)
  m := some 1
  np := 2
  max_np := 4
  p := []
  has_annotation := 3
  p_annotation := [some 10, some 11, some 12, some 20, some 21, some 22,
    some 0, some 0, some 0, some 0, some 0, some 0]
  nm := 0
  max_nm := 4
  pm := []
  last_sorted := 0
  sort_interval := 25
  sort_out_of_place := 1
  partition := []
  g := 0
  id := 0
  next := 0

/-- The macro `PAD(s,a)` of `util_base.h`, on sizes (unsigned): `&&&` is the bitwise and. -/
def PAD (s a : Nat) : Nat := a - (s &&& (a - 1))

/-- The macro `INDEX_FORTRAN_3(x,y,z,xl,xh,yl,yh,zl,zh)` of `util_base.h` on `int`
operands, every operation an `int` operation. -/
def INDEX_FORTRAN_3 (x y z xl xh yl yh zl _zh : Int) : Int :=
  wrap32 (wrap32 (x - xl) + wrap32 (wrap32 (wrap32 (xh - xl) + 1)
    * wrap32 (wrap32 (y - yl) + wrap32 (wrap32 (wrap32 (yh - yl) + 1) * wrap32 (z - zl)))))

/-- The macro `INDEX_C_3(x,y,z,xl,xh,yl,yh,zl,zh)` of `util_base.h` on `int` operands. -/
def INDEX_C_3 (x y z xl _xh yl yh zl zh : Int) : Int :=
  wrap32 (wrap32 (z - zl) + wrap32 (wrap32 (wrap32 (zh - zl) + 1)
    * wrap32 (wrap32 (y - yl) + wrap32 (wrap32 (wrap32 (yh - yl) + 1) * wrap32 (x - xl)))))

/-- The value of `sizeof(float)`, four bytes. -/
def sizeof_float : Nat := 4

/-- The outcome of `allocate_annotation_buffer`: the species after the call, the
acquisitions requested, each with its size in bytes and its alignment, and whether an
acquisition failed, which terminates the process. -/
structure alloc_t (F : Type) where
  sp : species_t F
  requests : List (Nat × Nat)
  fatal : Bool

/-- The member function `species_t::allocate_annotation_buffer`.  The macro
`MALLOC_ALIGNED(ptr, size, align)` is not in the source under study (`util_base.h` has
only the prototype of `malloc_aligned`) and is a parameter: `MALLOC_ALIGNED size align`
is the block acquired, or `none` when the acquisition fails.  The size is computed as in
the source: an `int` product, converted to `size_t` and multiplied by `sizeof(float)`
in `size_t`, modulo `2^64`. -/
def allocate_annotation_buffer {F : Type} (MALLOC_ALIGNED : Nat → Nat → Option (List F))
    (sp : species_t F) (slot_count : Int) : alloc_t F :=
  if slot_count ≤ 0 then
    { sp := { sp with has_annotation := 0 }, requests := [], fatal := false }
  else
    let sp1 : species_t F := { sp with has_annotation := slot_count }
    let size : Nat :=
      ((wrap32 (sp1.max_np * sp1.has_annotation) % 2 ^ 64).toNat * sizeof_float) % 2 ^ 64
    match MALLOC_ALIGNED size 128 with
    | some buf =>
      { sp := { sp1 with p_annotation := buf }, requests := [(size, 128)], fatal := false }
    | none => { sp := sp1, requests := [(size, 128)], fatal := true }

/-- Modelled from the spec: the code that puts a particle into the pending state is not in
the source under study; the comment on `particle_t::i` and the data model of the
specification give the locator of a pending particle, `8*voxel + face`. -/
def locator_encode (voxel face : Int) : Int := 8 * voxel + face

/-- Modelled from the spec: the code that reads a pending locator back is not in the
source under study; the voxel is the quotient and the face the remainder by `8`. -/
def locator_decode (i : Int) : Int × Int := (Int.tdiv i 8, Int.tmod i 8)

/-- The record `particle_injector_t` with `VPIC_GLOBAL_PARTICLE_ID` not defined. -/
structure particle_injector_t (F : Type) where
  dx : F
  dy : F
  dz : F
  i : Int
  ux : F
  uy : F
  uz : F
  w : F
  dispx : F
  dispy : F
  dispz : F
  sp_id : Int
  deriving DecidableEq, Repr

/-- The representation of the four byte scalars in memory, which C leaves to the
implementation: the bytes of a `float` and of an `int32_t` (`species_id` is `int32_t`), and
the values read from four bytes. -/
structure repr_t (F : Type) where
  float_bytes : F → List (Fin 256)
  float_value : List (Fin 256) → F
  int32_bytes : Int → List (Fin 256)
  int32_value : List (Fin 256) → Int

/-- Every scalar is four bytes wide and is read back from its bytes: every `float`, and
every integer in the range of `int32_t`. -/
def repr_t.four_bytes_wide {F : Type} (R : repr_t F) : Prop :=
  (∀ x : F, (R.float_bytes x).length = 4 ∧ R.float_value (R.float_bytes x) = x) ∧
  (∀ n : Int, -2 ^ 31 ≤ n → n < 2 ^ 31 →
    (R.int32_bytes n).length = 4 ∧ R.int32_value (R.int32_bytes n) = n)

/-- The bytes of a `particle_t`: its fields in the order of the declaration. -/
def particle_t.bytes {F : Type} (R : repr_t F) (p : particle_t F) : List (Fin 256) :=
  R.float_bytes p.dx ++ (R.float_bytes p.dy ++ (R.float_bytes p.dz ++ (R.int32_bytes p.i ++
    (R.float_bytes p.ux ++ (R.float_bytes p.uy ++ (R.float_bytes p.uz ++
      R.float_bytes p.w))))))

/-- The bytes of a `particle_mover_t`: its fields in the order of the declaration. -/
def particle_mover_t.bytes {F : Type} (R : repr_t F) (m : particle_mover_t F) :
    List (Fin 256) :=
  R.float_bytes m.dispx ++ (R.float_bytes m.dispy ++ (R.float_bytes m.dispz ++
    R.int32_bytes m.i))

/-- The bytes of a `particle_injector_t`: its fields in the order of the declaration. -/
def particle_injector_t.bytes {F : Type} (R : repr_t F) (pi : particle_injector_t F) :
    List (Fin 256) :=
  R.float_bytes pi.dx ++ (R.float_bytes pi.dy ++ (R.float_bytes pi.dz ++
    (R.int32_bytes pi.i ++ (R.float_bytes pi.ux ++ (R.float_bytes pi.uy ++
      (R.float_bytes pi.uz ++ (R.float_bytes pi.w ++ (R.float_bytes pi.dispx ++
        (R.float_bytes pi.dispy ++ (R.float_bytes pi.dispz ++ R.int32_bytes pi.sp_id))))))))))

/-- The four bytes at byte offset `off` of a memory image. -/
def field_bytes (mem : List (Fin 256)) (off : Nat) : List (Fin 256) := (mem.drop off).take 4

/-- A `particle_injector_t` read from a memory image through its own fields, each at its
byte offset in the declaration: `dx` at `0`, `dy` at `4`, ..., `sp_id` at `44`. -/
def particle_injector_t.read {F : Type} (R : repr_t F) (mem : List (Fin 256)) :
    particle_injector_t F :=
  { dx := R.float_value (field_bytes mem 0)
    dy := R.float_value (field_bytes mem 4)
    dz := R.float_value (field_bytes mem 8)
    i := R.int32_value (field_bytes mem 12)
    ux := R.float_value (field_bytes mem 16)
    uy := R.float_value (field_bytes mem 20)
    uz := R.float_value (field_bytes mem 24)
    w := R.float_value (field_bytes mem 28)
    dispx := R.float_value (field_bytes mem 32)
    dispy := R.float_value (field_bytes mem 36)
    dispz := R.float_value (field_bytes mem 40)
    sp_id := R.int32_value (field_bytes mem 44) }

/-- A concrete representation for the examples: integers in little endian two's
complement, and a toy `float` type of 256 values stored in the first of its four
bytes. -/
def sample_repr : repr_t (Fin 256) where
  float_bytes x := [x, 0, 0, 0]
  float_value bs := bs.headD 0
  int32_bytes n :=
    [Fin.ofNat (n % 2 ^ 32).toNat, Fin.ofNat ((n % 2 ^ 32) / 2 ^ 8).toNat,
      Fin.ofNat ((n % 2 ^ 32) / 2 ^ 16).toNat, Fin.ofNat ((n % 2 ^ 32) / 2 ^ 24).toNat]
  int32_value bs :=
    let w : Int := (bs.getD 0 0).val + 2 ^ 8 * (bs.getD 1 0).val + 2 ^ 16 * (bs.getD 2 0).val
      + 2 ^ 24 * (bs.getD 3 0).val
    if w < 2 ^ 31 then w else w - 2 ^ 32

/-- A sample particle in voxel `42`. -/
def sample_particle : particle_t (Fin 256) :=
  { dx := 1, dy := 2, dz := 3, i := 42, ux := 4, uy := 5, uz := 6, w := 7 }

/-- A sample mover for the particle at index `-9` (a negative index shows the sign). -/
def sample_mover : particle_mover_t (Fin 256) :=
  { dispx := 8, dispy := 9, dispz := 10, i := -9 }

/-- A sample injector. -/
def sample_injector : particle_injector_t (Fin 256) :=
  { dx := 1, dy := 2, dz := 3, i := 42, ux := 4, uy := 5, uz := 6, w := 7,
    dispx := 8, dispy := 9, dispz := 10, sp_id := 2 }


/-! ## Rounding to binary64 -/

theorem round_half_even_bounds (y : ℚ) :
    y - 1 / 2 ≤ (round_half_even y : ℚ) ∧ (round_half_even y : ℚ) ≤ y + 1 / 2 := by
  have h1 := Int.floor_le y
  have h2 := Int.lt_floor_add_one y
  unfold round_half_even
  split_ifs with a b c
  · constructor <;> linarith
  · push_cast; constructor <;> linarith
  · constructor <;> linarith
  · push_cast; constructor <;> linarith

theorem round_half_even_eq_of_lt (y : ℚ) (n : Int) (h1 : (n : ℚ) - 1 / 2 < y)
    (h2 : y < (n : ℚ) + 1 / 2) : round_half_even y = n := by
  have hb := round_half_even_bounds y
  have h3 : ((round_half_even y : Int) : ℚ) < ((n + 1 : Int) : ℚ) := by push_cast; linarith
  have h4 : ((n - 1 : Int) : ℚ) < ((round_half_even y : Int) : ℚ) := by push_cast; linarith
  have h3' : round_half_even y < n + 1 := by exact_mod_cast h3
  have h4' : n - 1 < round_half_even y := by exact_mod_cast h4
  omega

theorem round_half_even_intCast (n : Int) : round_half_even (n : ℚ) = n :=
  round_half_even_eq_of_lt _ n (by linarith) (by linarith)

theorem round_half_even_mono {y y' : ℚ} (h : y ≤ y') :
    round_half_even y ≤ round_half_even y' := by
  by_contra hc
  have hlt : round_half_even y' + 1 ≤ round_half_even y := by omega
  have hq : ((round_half_even y' + 1 : Int) : ℚ) ≤ ((round_half_even y : Int) : ℚ) := by
    exact_mod_cast hlt
  push_cast at hq
  have b := round_half_even_bounds y
  have b' := round_half_even_bounds y'
  have hyy : y = y' := by linarith
  subst hyy
  omega

/-- At a tie the rounding goes to the even integer. -/
theorem round_half_even_tie (n : Int) :
    round_half_even ((n : ℚ) + 1 / 2) = if n % 2 = 0 then n else n + 1 := by
  have hf : ⌊(n : ℚ) + 1 / 2⌋ = n := by
    rw [Int.floor_eq_iff]
    constructor <;> linarith
  unfold round_half_even
  rw [hf]
  have e : (n : ℚ) + 1 / 2 - (n : ℚ) = 1 / 2 := by ring
  rw [e, if_neg (lt_irrefl _), if_neg (lt_irrefl _)]


theorem two_zpow_pos (z : Int) : (0 : ℚ) < 2 ^ z := zpow_pos (by norm_num) z

theorem two_zpow_add (a b : Int) : (2 : ℚ) ^ (a + b) = 2 ^ a * 2 ^ b :=
  zpow_add₀ (by norm_num) a b

theorem two_zpow_le {a b : Int} (h : a ≤ b) : (2 : ℚ) ^ a ≤ 2 ^ b :=
  zpow_le_zpow_right₀ (by norm_num) h

/-- The binade of a positive number with a known power of two below and above. -/
theorem binade_eq (x : ℚ) (e : Int) (he : -1022 ≤ e) (h1 : 2 ^ e ≤ x) (h2 : x < 2 ^ (e + 1)) :
    binade x = e := by
  have hx : 0 < x := lt_of_lt_of_le (two_zpow_pos e) h1
  unfold binade
  rw [abs_of_pos hx]
  have ha : e ≤ Int.log 2 x := (Int.zpow_le_iff_le_log (by norm_num) hx).mp (by exact_mod_cast h1)
  have hb : Int.log 2 x < e + 1 :=
    (Int.lt_zpow_iff_log_lt (by norm_num) hx).mp (by exact_mod_cast h2)
  omega

/-- A positive number lies below the top of its binade. -/
theorem lt_two_zpow_binade (x : ℚ) (hx : 0 < x) : x < 2 ^ (binade x + 1) := by
  have h := Int.lt_zpow_succ_log_self (b := 2) (by norm_num) x
  have h' : x < (2 : ℚ) ^ (Int.log 2 x + 1) := by exact_mod_cast h
  refine lt_of_lt_of_le h' (two_zpow_le ?_)
  unfold binade
  rw [abs_of_pos hx]
  omega

/-- A normal number lies above the bottom of its binade. -/
theorem two_zpow_binade_le (x : ℚ) (hx : 0 < x) (hn : -1022 < binade x) :
    2 ^ binade x ≤ x := by
  have h := Int.zpow_log_le_self (b := 2) (r := x) (by norm_num) hx
  have h' : (2 : ℚ) ^ Int.log 2 x ≤ x := by exact_mod_cast h
  have hb : binade x = Int.log 2 x := by
    unfold binade at hn ⊢
    rw [abs_of_pos hx] at hn ⊢
    omega
  rw [hb]
  exact h'

theorem binade_mono {x y : ℚ} (hx : 0 < x) (h : x ≤ y) : binade x ≤ binade y := by
  unfold binade
  rw [abs_of_pos hx, abs_of_pos (lt_of_lt_of_le hx h)]
  exact max_le_max (Int.log_mono_right hx h) le_rfl

theorem binary64_zero : binary64 0 = 0 := by
  unfold binary64
  rw [zero_div]
  have := round_half_even_intCast 0
  simp only [Int.cast_zero] at this
  rw [this]
  simp

theorem binary64_nonneg {x : ℚ} (hx : 0 ≤ x) : 0 ≤ binary64 x := by
  unfold binary64
  have hs := two_zpow_pos (binade x - 52)
  have h0 : round_half_even 0 ≤ round_half_even (x / 2 ^ (binade x - 52)) :=
    round_half_even_mono (div_nonneg hx hs.le)
  have h1 := round_half_even_intCast 0
  simp only [Int.cast_zero] at h1
  rw [h1] at h0
  have : (0 : ℚ) ≤ (round_half_even (x / 2 ^ (binade x - 52)) : ℚ) := by exact_mod_cast h0
  exact mul_nonneg this hs.le

/-- The rounded value of a positive number is at most the top of its binade. -/
theorem binary64_le_top (x : ℚ) (hx : 0 < x) : binary64 x ≤ 2 ^ (binade x + 1) := by
  unfold binary64
  have hs := two_zpow_pos (binade x - 52)
  have hlt := lt_two_zpow_binade x hx
  have h53 : x / 2 ^ (binade x - 52) ≤ (((2 : Int) ^ 53 : Int) : ℚ) := by
    rw [div_le_iff₀ hs]
    have e : (((2 : Int) ^ 53 : Int) : ℚ) * 2 ^ (binade x - 52) = 2 ^ (binade x + 1) := by
      have : (((2 : Int) ^ 53 : Int) : ℚ) = (2 : ℚ) ^ (53 : Int) := by norm_num
      rw [this, ← two_zpow_add]
      congr 1
      ring
    rw [e]
    exact hlt.le
  have hr := round_half_even_mono h53
  rw [round_half_even_intCast] at hr
  have hr' : (round_half_even (x / 2 ^ (binade x - 52)) : ℚ) ≤ (((2 : Int) ^ 53 : Int) : ℚ) := by
    exact_mod_cast hr
  have e : (2 : ℚ) ^ (binade x + 1) = (((2 : Int) ^ 53 : Int) : ℚ) * 2 ^ (binade x - 52) := by
    have : (((2 : Int) ^ 53 : Int) : ℚ) = (2 : ℚ) ^ (53 : Int) := by norm_num
    rw [this, ← two_zpow_add]
    congr 1
    ring
  rw [e]
  exact mul_le_mul_of_nonneg_right hr' hs.le

/-- The rounded value of a normal number is at least the bottom of its binade. -/
theorem binary64_ge_bottom (x : ℚ) (hx : 0 < x) (hn : -1022 < binade x) :
    2 ^ binade x ≤ binary64 x := by
  unfold binary64
  have hs := two_zpow_pos (binade x - 52)
  have hge := two_zpow_binade_le x hx hn
  have e : (2 : ℚ) ^ binade x = (((2 : Int) ^ 52 : Int) : ℚ) * 2 ^ (binade x - 52) := by
    have : (((2 : Int) ^ 52 : Int) : ℚ) = (2 : ℚ) ^ (52 : Int) := by norm_num
    rw [this, ← two_zpow_add]
    congr 1
    ring
  have h52 : (((2 : Int) ^ 52 : Int) : ℚ) ≤ x / 2 ^ (binade x - 52) := by
    rw [le_div_iff₀ hs, ← e]
    exact hge
  have hr := round_half_even_mono h52
  rw [round_half_even_intCast] at hr
  have hr' : (((2 : Int) ^ 52 : Int) : ℚ) ≤ (round_half_even (x / 2 ^ (binade x - 52)) : ℚ) := by
    exact_mod_cast hr
  rw [e]
  exact mul_le_mul_of_nonneg_right hr' hs.le

/-- Rounding to binary64 is monotone on the nonnegative numbers. -/
theorem binary64_mono {x y : ℚ} (hx : 0 ≤ x) (h : x ≤ y) : binary64 x ≤ binary64 y := by
  rcases hx.eq_or_lt with h0 | hpos
  · rw [← h0, binary64_zero]
    exact binary64_nonneg (h0 ▸ h)
  · have hy : 0 < y := lt_of_lt_of_le hpos h
    rcases (binade_mono hpos h).eq_or_lt with he | hlt
    · unfold binary64
      rw [he]
      have hs := two_zpow_pos (binade y - 52)
      have hr := round_half_even_mono (div_le_div_of_nonneg_right h hs.le)
      have hr' : (round_half_even (x / 2 ^ (binade y - 52)) : ℚ)
          ≤ (round_half_even (y / 2 ^ (binade y - 52)) : ℚ) := by exact_mod_cast hr
      exact mul_le_mul_of_nonneg_right hr' hs.le
    · have hn : -1022 < binade y := by
        have : -1022 ≤ binade x := le_max_right _ _
        omega
      calc binary64 x ≤ 2 ^ (binade x + 1) := binary64_le_top x hpos
        _ ≤ 2 ^ binade y := two_zpow_le (by omega)
        _ ≤ binary64 y := binary64_ge_bottom y hy hn


/-- Numbers with a significand of at most 53 bits are not changed by the rounding. -/
theorem binary64_exact (n : ℕ) (z : Int) (hn : n < 2 ^ 53) (hz : -1074 ≤ z) :
    binary64 ((n : ℚ) * 2 ^ z) = (n : ℚ) * 2 ^ z := by
  rcases Nat.eq_zero_or_pos n with h0 | hpos
  · subst h0
    simp [binary64_zero]
  · have hx : (0 : ℚ) < (n : ℚ) * 2 ^ z := mul_pos (by exact_mod_cast hpos) (two_zpow_pos z)
    have hlt : (n : ℚ) * 2 ^ z < 2 ^ (z + 53) := by
      rw [add_comm, two_zpow_add]
      have : (n : ℚ) < (2 : ℚ) ^ (53 : Int) := by
        have : (n : ℚ) < ((2 ^ 53 : ℕ) : ℚ) := by exact_mod_cast hn
        norm_num at this ⊢
        exact this
      exact mul_lt_mul_of_pos_right this (two_zpow_pos z)
    have hlog : Int.log 2 ((n : ℚ) * 2 ^ z) < z + 53 :=
      (Int.lt_zpow_iff_log_lt (by norm_num) hx).mp (by exact_mod_cast hlt)
    have hE : binade ((n : ℚ) * 2 ^ z) ≤ z + 52 := by
      unfold binade
      rw [abs_of_pos hx]
      exact max_le (by omega) (by omega)
    obtain ⟨k, hk⟩ := Int.eq_ofNat_of_zero_le (by omega : 0 ≤ z + 52 - binade ((n : ℚ) * 2 ^ z))
    unfold binary64
    have hz' : z = (k : Int) + (binade ((n : ℚ) * 2 ^ z) - 52) := by omega
    have hs := two_zpow_pos (binade ((n : ℚ) * 2 ^ z) - 52)
    have hdiv : (n : ℚ) * 2 ^ z / 2 ^ (binade ((n : ℚ) * 2 ^ z) - 52)
        = (((n : Int) * 2 ^ k : Int) : ℚ) := by
      rw [div_eq_iff hs.ne']
      nth_rewrite 1 [hz']
      rw [two_zpow_add, zpow_natCast]
      push_cast
      ring
    rw [hdiv, round_half_even_intCast]
    nth_rewrite 2 [hz']
    rw [two_zpow_add, zpow_natCast]
    push_cast
    ring

/-- Integers of at most 53 bits are binary64 numbers. -/
theorem binary64_natCast (n : ℕ) (hn : n ≤ 2 ^ 53) : binary64 (n : ℚ) = (n : ℚ) := by
  rcases hn.eq_or_lt with h | h
  · have := binary64_exact 1 53 (by norm_num) (by norm_num)
    subst h
    norm_num at this ⊢
    exact this
  · have := binary64_exact n 0 h (by norm_num)
    simpa using this

/-- Relative error of the rounding of a normal number: half a unit in the last place. -/
theorem binary64_error (x : ℚ) (hx : 2 ^ (-1022 : Int) ≤ x) :
    |binary64 x - x| ≤ 2 ^ (-53 : Int) * x := by
  have hpos : 0 < x := lt_of_lt_of_le (two_zpow_pos _) hx
  have hlog : -1022 ≤ Int.log 2 x :=
    (Int.zpow_le_iff_le_log (by norm_num) hpos).mp (by exact_mod_cast hx)
  have hb : binade x = Int.log 2 x := by
    unfold binade
    rw [abs_of_pos hpos]
    omega
  have hge : (2 : ℚ) ^ binade x ≤ x := by
    rw [hb]
    exact_mod_cast Int.zpow_log_le_self (b := 2) (r := x) (by norm_num) hpos
  have hs := two_zpow_pos (binade x - 52)
  have hr := round_half_even_bounds (x / 2 ^ (binade x - 52))
  have hx' : x = x / 2 ^ (binade x - 52) * 2 ^ (binade x - 52) := by
    field_simp
  have e : (2 : ℚ) ^ (binade x - 52) = 2 ^ (-52 : Int) * 2 ^ binade x := by
    rw [← two_zpow_add]
    congr 1
    ring
  unfold binary64
  rw [abs_le]
  have h1 : (2 : ℚ) ^ (-53 : Int) * x ≥ 1 / 2 * 2 ^ (binade x - 52) := by
    rw [e]
    have : (2 : ℚ) ^ (-53 : Int) = 1 / 2 * 2 ^ (-52 : Int) := by norm_num
    rw [this]
    have h52 : (0 : ℚ) < 1 / 2 * 2 ^ (-52 : Int) := by positivity
    nlinarith [mul_le_mul_of_nonneg_left hge h52.le]
  constructor
  · nlinarith [mul_le_mul_of_nonneg_right hr.1 hs.le]
  · nlinarith [mul_le_mul_of_nonneg_right hr.2 hs.le]

/-- Evaluation of the rounding: a number of binade `e` strictly within half a unit in the
last place of `n` units rounds to `n` units. -/
theorem binary64_eq_of_near (x : ℚ) (e n : Int) (he : -1022 ≤ e) (h1 : 2 ^ e ≤ x)
    (h2 : x < 2 ^ (e + 1)) (h3 : ((n : ℚ) - 1 / 2) * 2 ^ (e - 52) < x)
    (h4 : x < ((n : ℚ) + 1 / 2) * 2 ^ (e - 52)) : binary64 x = (n : ℚ) * 2 ^ (e - 52) := by
  unfold binary64
  rw [binade_eq x e he h1 h2]
  have hs := two_zpow_pos (e - 52)
  rw [round_half_even_eq_of_lt _ n (by rw [lt_div_iff₀ hs]; exact h3)
    (by rw [div_lt_iff₀ hs]; exact h4)]

/-- Evaluation of the rounding at a tie: to the even number of units. -/
theorem binary64_eq_of_tie (x : ℚ) (e n : Int) (he : -1022 ≤ e) (h1 : 2 ^ e ≤ x)
    (h2 : x < 2 ^ (e + 1)) (h3 : x = ((n : ℚ) + 1 / 2) * 2 ^ (e - 52)) :
    binary64 x = ((if n % 2 = 0 then n else n + 1 : Int) : ℚ) * 2 ^ (e - 52) := by
  unfold binary64
  rw [binade_eq x e he h1 h2]
  have hs := two_zpow_pos (e - 52)
  have : x / 2 ^ (e - 52) = (n : ℚ) + 1 / 2 := by
    rw [div_eq_iff hs.ne', h3]
  rw [this, round_half_even_tie]

theorem truncToInt_of_nonneg (x : ℚ) (hx : 0 ≤ x) : truncToInt x = ⌊x⌋ := by
  unfold truncToInt
  rw [Int.tdiv_eq_ediv (Rat.num_nonneg.mpr hx) (by positivity), ← Rat.floor_def]

theorem wrap32_of_range (n : Int) (h0 : -2 ^ 31 ≤ n) (h1 : n < 2 ^ 31) : wrap32 n = n := by
  unfold wrap32
  omega

/-- Multiples of a quarter with a numerator of at most 53 bits are binary64 numbers. -/
theorem binary64_quarters (m : Int) (h0 : 0 ≤ m) (h1 : m < 2 ^ 53) :
    binary64 ((m : ℚ) / 4) = (m : ℚ) / 4 := by
  obtain ⟨k, rfl⟩ := Int.eq_ofNat_of_zero_le h0
  have hk : k < 2 ^ 53 := by exact_mod_cast h1
  have h := binary64_exact k (-2) hk (by norm_num)
  have e : ((k : ℕ) : ℚ) * 2 ^ (-2 : Int) = (((k : ℕ) : Int) : ℚ) / 4 := by
    norm_num
    ring
  rw [e] at h
  exact h

theorem binary64_half : binary64 (1 / 2) = 1 / 2 := by
  have h := binary64_quarters 2 (by norm_num) (by norm_num)
  norm_num at h
  exact h

theorem binary64_intCast (m : Int) (h0 : 0 ≤ m) (h1 : m ≤ 2 ^ 53) :
    binary64 (m : ℚ) = (m : ℚ) := by
  obtain ⟨k, rfl⟩ := Int.eq_ofNat_of_zero_le h0
  exact_mod_cast binary64_natCast k (by exact_mod_cast h1)

theorem truncToInt_intCast (n : Int) (hn : 0 ≤ n) : truncToInt (n : ℚ) = n := by
  rw [truncToInt_of_nonneg _ (by exact_mod_cast hn), Int.floor_intCast]

/-! ## Workload distribution: `DISTRIBUTE` under the exact reading -/

/-- Truncation of a nonnegative fraction of integers is the integer quotient. -/
theorem truncToInt_div (m d : Int) (hm : 0 ≤ m) (hd : 0 < d) :
    truncToInt ((m : ℚ) / (d : ℚ)) = m / d := by
  have hx : (0 : ℚ) ≤ (m : ℚ) / (d : ℚ) := by positivity
  unfold truncToInt
  rw [Int.tdiv_eq_ediv (Rat.num_nonneg.mpr hx) (by positivity), ← Rat.floor_def]
  obtain ⟨k, rfl⟩ := Int.eq_ofNat_of_zero_le hd.le
  exact_mod_cast Rat.floor_intCast_div_natCast m k

/-- The rounded share `(int)(_t*p + 0.5)` with `_t = q/P` as an integer quotient. -/
theorem trunc_share (q p P : Int) (hq : 0 ≤ q) (hp : 0 ≤ p) (hP : 1 ≤ P) :
    truncToInt ((q : ℚ) / (P : ℚ) * (p : ℚ) + 1 / 2) = (2 * q * p + P) / (2 * P) := by
  have hP0 : (P : ℚ) ≠ 0 := by
    have : (0 : ℚ) < (P : ℚ) := by exact_mod_cast (by omega : 0 < P)
    exact this.ne'
  have h : (q : ℚ) / (P : ℚ) * (p : ℚ) + 1 / 2
      = (((2 * q * p + P : Int) : ℚ)) / (((2 * P : Int)) : ℚ) := by
    push_cast
    field_simp
    ring
  rw [h, truncToInt_div _ _ (by positivity) (by omega)]

theorem DISTRIBUTE_exact_fst (N b p P : Int) (hN : 0 ≤ N) (hb : 1 ≤ b) (hp : 0 ≤ p) (hP : 1 ≤ P) :
    (DISTRIBUTE_exact N b p P).1 = blockStart N b p P := by
  have hq : 0 ≤ N / b := Int.ediv_nonneg hN (by omega)
  simp only [DISTRIBUTE_exact, blockStart]
  rw [Int.tdiv_eq_ediv hN (by omega), trunc_share _ _ _ hq hp hP]

theorem DISTRIBUTE_exact_snd_worker (N b p P : Int) (hN : 0 ≤ N) (hb : 1 ≤ b) (hp : 0 ≤ p)
    (hP : 1 ≤ P) (hpP : p ≠ P) :
    (DISTRIBUTE_exact N b p P).2 = blockStart N b (p + 1) P - blockStart N b p P := by
  have hq : 0 ≤ N / b := Int.ediv_nonneg hN (by omega)
  simp only [DISTRIBUTE_exact, blockStart, if_neg hpP]
  rw [Int.tdiv_eq_ediv hN (by omega), trunc_share _ _ _ hq hp hP,
    trunc_share _ _ _ hq (by omega) hP]

theorem DISTRIBUTE_exact_snd_dispatcher (N b P : Int) (hN : 0 ≤ N) (hb : 1 ≤ b) :
    (DISTRIBUTE_exact N b P P).2 = N % b := by
  simp only [DISTRIBUTE_exact, if_true]
  exact Int.tmod_eq_emod hN (by omega)

theorem blockStart_zero (N b P : Int) (hP : 1 ≤ P) : blockStart N b 0 P = 0 := by
  unfold blockStart
  have : (2 * (N / b) * 0 + P) / (2 * P) = 0 := by
    apply Int.ediv_eq_zero_of_lt <;> omega
  rw [this]; simp

theorem blockStart_last (N b P : Int) (hP : 1 ≤ P) : blockStart N b P P = b * (N / b) := by
  unfold blockStart
  have : (2 * (N / b) * P + P) / (2 * P) = N / b := by
    have h2 : 2 * (N / b) * P + P = P + (2 * P) * (N / b) := by ring
    rw [h2, Int.add_mul_ediv_left _ _ (by omega : (2 * P) ≠ 0)]
    rw [Int.ediv_eq_zero_of_lt (by omega) (by omega)]; simp
  rw [this]

theorem blockStart_monotone (N b P : Int) (hN : 0 ≤ N) (hb : 1 ≤ b) (hP : 1 ≤ P)
    (p p' : Int) (h : p ≤ p') : blockStart N b p P ≤ blockStart N b p' P := by
  unfold blockStart
  have hq : 0 ≤ N / b := Int.ediv_nonneg hN (by omega)
  apply Int.mul_le_mul_of_nonneg_left _ (by omega)
  apply Int.ediv_le_ediv (by omega)
  nlinarith

/-- The pipelines `0, 1, ..., k` as the image of `Finset.range (k + 1)`. -/
theorem Icc_eq_map_range (k : ℕ) :
    Finset.Icc (0 : Int) (k : Int) = (Finset.range (k + 1)).map Nat.castEmbedding := by
  ext x
  simp only [Finset.mem_Icc, Finset.mem_map, Finset.mem_range, Nat.castEmbedding_apply]
  constructor
  · rintro ⟨h0, h1⟩
    exact ⟨x.toNat, by omega, by omega⟩
  · rintro ⟨a, ha, rfl⟩
    omega

/-- A sequence that starts at or below `k` and ends above `k` steps over `k` somewhere. -/
theorem exists_step_over (f : ℕ → Int) (k : Int) (m : ℕ) (h0 : f 0 ≤ k) (hm : k < f m) :
    ∃ p, p < m ∧ f p ≤ k ∧ k < f (p + 1) := by
  induction m with
  | zero => omega
  | succ m ih =>
    by_cases hk : k < f m
    · obtain ⟨p, hp, h1, h2⟩ := ih hk
      exact ⟨p, by omega, h1, h2⟩
    · exact ⟨m, by omega, by omega, hm⟩

/-- Under the exact reading no `int` of `DISTRIBUTE` leaves the interval `[0, N]`: the
boundaries `_i` of the pipelines `0..P` lie in it. -/
theorem DISTRIBUTE_exact_fst_bounds (N b p P : Int) (hN : 0 ≤ N) (hb : 1 ≤ b) (hP : 1 ≤ P)
    (hp : 0 ≤ p) (hpP : p ≤ P) :
    0 ≤ (DISTRIBUTE_exact N b p P).1 ∧ (DISTRIBUTE_exact N b p P).1 ≤ N := by
  rw [DISTRIBUTE_exact_fst N b p P hN hb hp hP]
  have h0 := blockStart_monotone N b P hN hb hP 0 p hp
  have h1 := blockStart_monotone N b P hN hb hP p P hpP
  rw [blockStart_zero N b P hP] at h0
  rw [blockStart_last N b P hP] at h1
  have h2 := Int.emod_add_ediv N b
  have h3 := Int.emod_nonneg N (by omega : b ≠ 0)
  omega

/-- C1: for every `N >= 0`, block size `b >= 1` and `P >= 1`, the counts `n` that
`DISTRIBUTE` assigns to the pipelines `p = 0, 1, ..., P` (the `P` workers and the
dispatcher) sum to exactly `N`, reading the double arithmetic as exact and `(int)` as
truncation. -/
theorem DISTRIBUTE_counts_sum (N b P : Int) (hN : 0 ≤ N) (hb : 1 ≤ b) (hP : 1 ≤ P) :
    ∑ p in Finset.Icc (0 : Int) P, (DISTRIBUTE_exact N b p P).2 = N := by
  obtain ⟨k, rfl⟩ := Int.eq_ofNat_of_zero_le (by omega : 0 ≤ P)
  rw [Icc_eq_map_range, Finset.sum_map]
  simp only [Nat.castEmbedding_apply]
  rw [Finset.sum_range_succ, DISTRIBUTE_exact_snd_dispatcher N b k hN hb]
  have hw : ∀ p ∈ Finset.range k, (DISTRIBUTE_exact N b (p : Int) (k : Int)).2
      = blockStart N b ((p + 1 : ℕ) : Int) k - blockStart N b (p : Int) k := by
    intro p hp
    have hlt : p < k := Finset.mem_range.mp hp
    rw [DISTRIBUTE_exact_snd_worker N b p k hN hb (by positivity) hP (by omega)]
    push_cast; rfl
  rw [Finset.sum_congr rfl hw,
    Finset.sum_range_sub (fun p : ℕ => blockStart N b (p : Int) k)]
  simp only [Nat.cast_zero]
  rw [blockStart_zero N b k hP, blockStart_last N b k hP]
  have := Int.emod_add_ediv N b
  omega

/-- Witness of C1 at the example of the specification: for `N = 1000`, block size `10` and
`P = 4` the five counts sum to `1000`. -/
theorem DISTRIBUTE_counts_sum_witness :
    (0 : Int) ≤ 1000 ∧ (1 : Int) ≤ 10 ∧ (1 : Int) ≤ 4 ∧
      ∑ p in Finset.Icc (0 : Int) 4, (DISTRIBUTE_exact 1000 10 p 4).2 = 1000 :=
  ⟨by decide, by decide, by decide,
    DISTRIBUTE_counts_sum 1000 10 4 (by decide) (by decide) (by decide)⟩

/-! ## Workload distribution: `DISTRIBUTE` in binary64 and `int` arithmetic -/

/-- The share of pipeline `0` is empty. -/
theorem share_zero (q P : Int) : share q P 0 = 0 := by
  unfold share
  simp only [Int.cast_zero, mul_zero, binary64_zero, zero_add, binary64_half]
  rw [truncToInt_of_nonneg _ (by norm_num), Int.floor_eq_iff]
  norm_num

theorem share_nonneg_arg (q P p : Int) (hq : 0 ≤ q) (hP : 1 ≤ P) (hp : 0 ≤ p) :
    0 ≤ binary64 (binary64 (binary64 ((q : ℚ) / (P : ℚ)) * (p : ℚ)) + 1 / 2) := by
  have hx : (0 : ℚ) ≤ (q : ℚ) / (P : ℚ) :=
    div_nonneg (by exact_mod_cast hq) (by exact_mod_cast (by omega : 0 ≤ P))
  have ht := binary64_nonneg hx
  have hw : (0 : ℚ) ≤ binary64 ((q : ℚ) / (P : ℚ)) * (p : ℚ) :=
    mul_nonneg ht (by exact_mod_cast hp)
  have ha := binary64_nonneg hw
  exact binary64_nonneg (by linarith)

/-- The rounded shares grow with the pipeline. -/
theorem share_mono (q P p p' : Int) (hq : 0 ≤ q) (hP : 1 ≤ P) (hp : 0 ≤ p) (h : p ≤ p') :
    share q P p ≤ share q P p' := by
  have hx : (0 : ℚ) ≤ (q : ℚ) / (P : ℚ) :=
    div_nonneg (by exact_mod_cast hq) (by exact_mod_cast (by omega : 0 ≤ P))
  have ht := binary64_nonneg hx
  have hpq : (0 : ℚ) ≤ (p : ℚ) := by exact_mod_cast hp
  have hpp : (p : ℚ) ≤ (p' : ℚ) := by exact_mod_cast h
  have hw : (0 : ℚ) ≤ binary64 ((q : ℚ) / (P : ℚ)) * (p : ℚ) := mul_nonneg ht hpq
  have hww : binary64 ((q : ℚ) / (P : ℚ)) * (p : ℚ) ≤ binary64 ((q : ℚ) / (P : ℚ)) * (p' : ℚ) :=
    mul_le_mul_of_nonneg_left hpp ht
  have ha := binary64_mono hw hww
  have ha0 := binary64_nonneg hw
  have hy := binary64_mono (by linarith : (0 : ℚ) ≤ binary64 (binary64 ((q : ℚ) / (P : ℚ)) * (p : ℚ)) + 1 / 2)
    (by linarith : binary64 (binary64 ((q : ℚ) / (P : ℚ)) * (p : ℚ)) + 1 / 2
      ≤ binary64 (binary64 ((q : ℚ) / (P : ℚ)) * (p' : ℚ)) + 1 / 2)
  unfold share
  rw [truncToInt_of_nonneg _ (share_nonneg_arg q P p hq hP hp),
    truncToInt_of_nonneg _ (share_nonneg_arg q P p' hq hP (by omega))]
  exact Int.floor_mono hy

/-- The rounded share of the last pipeline boundary is the whole number of blocks: the
error of the division, carried through the product with `P`, stays below a quarter. -/
theorem share_last (q P : Int) (hq : 0 ≤ q) (hq' : q < 2 ^ 31) (hP : 1 ≤ P) (hP' : P < 2 ^ 31) :
    share q P P = q := by
  have hPq : (0 : ℚ) < (P : ℚ) := by exact_mod_cast (by omega : 0 < P)
  have hqq : (0 : ℚ) ≤ (q : ℚ) := by exact_mod_cast hq
  have hq31 : (q : ℚ) < 2 ^ 31 := by exact_mod_cast hq'
  have hP31 : (P : ℚ) < 2 ^ 31 := by exact_mod_cast hP'
  have hx : (0 : ℚ) ≤ (q : ℚ) / (P : ℚ) := div_nonneg hqq hPq.le
  -- the product t * P is within a quarter of q
  have hprod : (q : ℚ) - 1 / 4 ≤ binary64 ((q : ℚ) / (P : ℚ)) * (P : ℚ) ∧
      binary64 ((q : ℚ) / (P : ℚ)) * (P : ℚ) ≤ (q : ℚ) + 1 / 4 := by
    rcases hq.eq_or_lt with h0 | hpos
    · rw [← h0]
      simp only [Int.cast_zero, zero_div, binary64_zero, zero_mul]
      constructor <;> norm_num
    · have hq1 : (1 : ℚ) ≤ (q : ℚ) := by exact_mod_cast (by omega : 1 ≤ q)
      have hnorm : (2 : ℚ) ^ (-1022 : Int) ≤ (q : ℚ) / (P : ℚ) := by
        rw [le_div_iff₀ hPq]
        have h1 : (2 : ℚ) ^ (-1022 : Int) ≤ 2 ^ (-31 : Int) := two_zpow_le (by norm_num)
        have h2 : (2 : ℚ) ^ (-31 : Int) * (P : ℚ) ≤ 1 := by
          have : (2 : ℚ) ^ (-31 : Int) * 2 ^ 31 = 1 := by norm_num
          nlinarith [two_zpow_pos (-31)]
        nlinarith [two_zpow_pos (-31), two_zpow_pos (-1022)]
      have herr := binary64_error _ hnorm
      rw [abs_le] at herr
      have hu : (2 : ℚ) ^ (-53 : Int) * ((q : ℚ) / (P : ℚ)) * (P : ℚ) ≤ 1 / 4 := by
        have : (2 : ℚ) ^ (-53 : Int) * ((q : ℚ) / (P : ℚ)) * (P : ℚ) = 2 ^ (-53 : Int) * (q : ℚ) := by
          field_simp
          ring
        rw [this]
        have : (2 : ℚ) ^ (-53 : Int) * 2 ^ 31 ≤ 1 / 4 := by norm_num
        nlinarith [two_zpow_pos (-53)]
      have hxP : (q : ℚ) / (P : ℚ) * (P : ℚ) = (q : ℚ) := by field_simp
      constructor
      · nlinarith [mul_le_mul_of_nonneg_right herr.1 hPq.le]
      · nlinarith [mul_le_mul_of_nonneg_right herr.2 hPq.le]
  have e1 : (q : ℚ) - 1 / 4 = (((4 * q - 1 : Int)) : ℚ) / 4 := by push_cast; ring
  have e2 : (q : ℚ) + 1 / 4 = (((4 * q + 1 : Int)) : ℚ) / 4 := by push_cast; ring
  have e3 : (q : ℚ) + 3 / 4 = (((4 * q + 3 : Int)) : ℚ) / 4 := by push_cast; ring
  have hw0 : (0 : ℚ) ≤ binary64 ((q : ℚ) / (P : ℚ)) * (P : ℚ) :=
    mul_nonneg (binary64_nonneg hx) hPq.le
  -- rounding the product keeps it within a quarter of q
  have ha2 : binary64 (binary64 ((q : ℚ) / (P : ℚ)) * (P : ℚ)) ≤ (q : ℚ) + 1 / 4 := by
    have := binary64_mono hw0 hprod.2
    rw [e2, binary64_quarters _ (by omega) (by omega)] at this
    rw [e2]
    exact this
  have ha1 : (q : ℚ) - 1 / 4 ≤ binary64 (binary64 ((q : ℚ) / (P : ℚ)) * (P : ℚ)) := by
    rcases hq.eq_or_lt with h0 | hpos
    · have hq0 : (q : ℚ) = 0 := by rw [← h0]; simp
      linarith [binary64_nonneg hw0]
    · have h14 : (0 : ℚ) ≤ (q : ℚ) - 1 / 4 := by
        have : (1 : ℚ) ≤ (q : ℚ) := by exact_mod_cast (by omega : 1 ≤ q)
        linarith
      have := binary64_mono h14 hprod.1
      rw [e1, binary64_quarters _ (by omega) (by omega)] at this
      rw [e1]
      exact this
  have ha0 := binary64_nonneg hw0
  have hy1 : (q : ℚ) + 1 / 4 ≤ binary64 (binary64 (binary64 ((q : ℚ) / (P : ℚ)) * (P : ℚ)) + 1 / 2) := by
    have := binary64_mono (by linarith : (0 : ℚ) ≤ (q : ℚ) + 1 / 4)
      (by linarith : (q : ℚ) + 1 / 4 ≤ binary64 (binary64 ((q : ℚ) / (P : ℚ)) * (P : ℚ)) + 1 / 2)
    rw [e2, binary64_quarters _ (by omega) (by omega)] at this
    rw [e2]
    exact this
  have hy2 : binary64 (binary64 (binary64 ((q : ℚ) / (P : ℚ)) * (P : ℚ)) + 1 / 2) ≤ (q : ℚ) + 3 / 4 := by
    have := binary64_mono (by linarith : (0 : ℚ) ≤ binary64 (binary64 ((q : ℚ) / (P : ℚ)) * (P : ℚ)) + 1 / 2)
      (by linarith : binary64 (binary64 ((q : ℚ) / (P : ℚ)) * (P : ℚ)) + 1 / 2 ≤ (q : ℚ) + 3 / 4)
    rw [e3, binary64_quarters _ (by omega) (by omega)] at this
    rw [e3]
    exact this
  unfold share
  rw [truncToInt_of_nonneg _ (by linarith), Int.floor_eq_iff]
  constructor <;> linarith


/-- The rounded share of a pipeline boundary `p` in `[0, P]` lies in `[0, N / b]`, and the
product with the block size in `[0, N]`: no `int` of the macro wraps. -/
theorem share_bounds (N b P p : Int) (hN : 0 ≤ N) (hN' : N < 2 ^ 31) (hb : 1 ≤ b) (hP : 1 ≤ P)
    (hP' : P < 2 ^ 31) (hp : 0 ≤ p) (hpP : p ≤ P) :
    0 ≤ share (N / b) P p ∧ share (N / b) P p ≤ N / b ∧
    0 ≤ b * share (N / b) P p ∧ b * share (N / b) P p ≤ N := by
  have hq : 0 ≤ N / b := Int.ediv_nonneg hN (by omega)
  have hqN : N / b ≤ N := Int.ediv_le_self b hN
  have h0 := share_mono (N / b) P 0 p hq hP le_rfl hp
  have h1 := share_mono (N / b) P p P hq hP hp hpP
  rw [share_zero] at h0
  rw [share_last (N / b) P hq (by omega) hP hP'] at h1
  have h2 : b * (N / b) ≤ N := by
    have := Int.emod_add_ediv N b
    have := Int.emod_nonneg N (by omega : b ≠ 0)
    omega
  have h3 : b * share (N / b) P p ≤ b * (N / b) := Int.mul_le_mul_of_nonneg_left h1 (by omega)
  exact ⟨h0, h1, Int.mul_nonneg (by omega) h0, by omega⟩

theorem DISTRIBUTE_fst (N b p P : Int) (hN : 0 ≤ N) (hN' : N < 2 ^ 31) (hb : 1 ≤ b)
    (hP : 1 ≤ P) (hP' : P < 2 ^ 31) (hp : 0 ≤ p) (hpP : p ≤ P) :
    (DISTRIBUTE N b p P).1 = b * share (N / b) P p := by
  have hs := share_bounds N b P p hN hN' hb hP hP' hp hpP
  simp only [DISTRIBUTE]
  rw [Int.tdiv_eq_ediv hN (by omega)]
  exact wrap32_of_range _ (by unfold share at hs; omega) (by unfold share at hs; omega)

theorem DISTRIBUTE_snd_worker (N b p P : Int) (hN : 0 ≤ N) (hN' : N < 2 ^ 31) (hb : 1 ≤ b)
    (hP : 1 ≤ P) (hP' : P < 2 ^ 31) (hp : 0 ≤ p) (hpP : p < P) :
    (DISTRIBUTE N b p P).2 = b * share (N / b) P (p + 1) - b * share (N / b) P p := by
  have hs := share_bounds N b P p hN hN' hb hP hP' hp hpP.le
  have hs1 := share_bounds N b P (p + 1) hN hN' hb hP hP' (by omega) (by omega)
  have hq : 0 ≤ N / b := Int.ediv_nonneg hN (by omega)
  have hm := share_mono (N / b) P p (p + 1) hq hP hp (by omega)
  have hm' : b * share (N / b) P p ≤ b * share (N / b) P (p + 1) :=
    Int.mul_le_mul_of_nonneg_left hm (by omega)
  simp only [DISTRIBUTE, if_neg (by omega : ¬ p = P)]
  rw [Int.tdiv_eq_ediv hN (by omega), wrap32_of_range (p + 1) (by omega) (by omega)]
  unfold share at hs hs1 hm'
  rw [wrap32_of_range (b * _) (by omega) (by omega),
    wrap32_of_range (b * _) (by omega) (by omega)]
  rw [wrap32_of_range _ (by omega) (by omega)]
  rfl

theorem DISTRIBUTE_snd_dispatcher (N b P : Int) (hN : 0 ≤ N) (hb : 1 ≤ b) :
    (DISTRIBUTE N b P P).2 = N % b := by
  simp only [DISTRIBUTE, if_true]
  exact Int.tmod_eq_emod hN (by omega)

/-- C2: for every `N >= 0`, block size `b >= 1` and `P >= 1` (values of `int`, so `N` and
`P` are below `2^31`), the `P + 1` ranges `[i(p), i(p) + n(p))` of `DISTRIBUTE` for
`p = 0..P` are contiguous and in increasing order: `i(0) = 0`, every count is
nonnegative, `i(p+1) = i(p) + n(p)` for `p < P`, and `i(P) + n(P) = N`; so every item
index in `[0, N)` lies in exactly one range. -/
theorem DISTRIBUTE_ranges_partition (N b P : Int) (hN : 0 ≤ N) (hN' : N < 2 ^ 31)
    (hb : 1 ≤ b) (hP : 1 ≤ P) (hP' : P < 2 ^ 31) :
    (DISTRIBUTE N b 0 P).1 = 0 ∧
    (∀ p, 0 ≤ p → p ≤ P → 0 ≤ (DISTRIBUTE N b p P).2) ∧
    (∀ p, 0 ≤ p → p < P →
      (DISTRIBUTE N b (p + 1) P).1 = (DISTRIBUTE N b p P).1 + (DISTRIBUTE N b p P).2) ∧
    (DISTRIBUTE N b P P).1 + (DISTRIBUTE N b P P).2 = N ∧
    (∀ k, 0 ≤ k → k < N → ∃! p, 0 ≤ p ∧ p ≤ P ∧
      (DISTRIBUTE N b p P).1 ≤ k ∧ k < (DISTRIBUTE N b p P).1 + (DISTRIBUTE N b p P).2) := by
  have hq : 0 ≤ N / b := Int.ediv_nonneg hN (by omega)
  have hqN : N / b ≤ N := Int.ediv_le_self b hN
  have hstep : ∀ p, 0 ≤ p → p < P →
      (DISTRIBUTE N b (p + 1) P).1 = (DISTRIBUTE N b p P).1 + (DISTRIBUTE N b p P).2 := by
    intro p h0 h1
    rw [DISTRIBUTE_fst N b (p + 1) P hN hN' hb hP hP' (by omega) (by omega),
      DISTRIBUTE_fst N b p P hN hN' hb hP hP' h0 h1.le,
      DISTRIBUTE_snd_worker N b p P hN hN' hb hP hP' h0 h1]
    ring
  have hlast : (DISTRIBUTE N b P P).1 + (DISTRIBUTE N b P P).2 = N := by
    rw [DISTRIBUTE_fst N b P P hN hN' hb hP hP' (by omega) le_rfl,
      DISTRIBUTE_snd_dispatcher N b P hN hb, share_last (N / b) P hq (by omega) hP hP']
    have := Int.emod_add_ediv N b
    omega
  have hmono : ∀ p p', 0 ≤ p → p ≤ p' → p' ≤ P →
      (DISTRIBUTE N b p P).1 ≤ (DISTRIBUTE N b p' P).1 := by
    intro p p' h0 h1 h2
    rw [DISTRIBUTE_fst N b p P hN hN' hb hP hP' h0 (by omega),
      DISTRIBUTE_fst N b p' P hN hN' hb hP hP' (by omega) h2]
    exact Int.mul_le_mul_of_nonneg_left (share_mono (N / b) P p p' hq hP h0 h1) (by omega)
  have hzero : (DISTRIBUTE N b 0 P).1 = 0 := by
    rw [DISTRIBUTE_fst N b 0 P hN hN' hb hP hP' le_rfl (by omega), share_zero, mul_zero]
  refine ⟨hzero, ?_, hstep, hlast, ?_⟩
  · intro p h0 h1
    rcases eq_or_lt_of_le h1 with rfl | hlt
    · rw [DISTRIBUTE_snd_dispatcher N b p hN hb]
      exact Int.emod_nonneg _ (by omega)
    · have := hstep p h0 hlt
      have := hmono p (p + 1) h0 (by omega) (by omega)
      omega
  · intro k hk0 hkN
    obtain ⟨m, rfl⟩ := Int.eq_ofNat_of_zero_le (by omega : 0 ≤ P)
    let f : ℕ → Int := fun p => if p ≤ m then (DISTRIBUTE N b (p : Int) (m : Int)).1 else N
    have hf0 : f 0 ≤ k := by
      simp only [f, Nat.zero_le, if_true, Nat.cast_zero]
      omega
    have hfm : k < f (m + 1) := by
      simp only [f, show ¬ (m + 1 ≤ m) by omega, if_false]
      exact hkN
    obtain ⟨p, hp, h1, h2⟩ := exists_step_over f k (m + 1) hf0 hfm
    have hpm : p ≤ m := by omega
    have hfp : f p = (DISTRIBUTE N b (p : Int) (m : Int)).1 := by simp only [f, hpm, if_true]
    have hend : f (p + 1)
        = (DISTRIBUTE N b (p : Int) (m : Int)).1 + (DISTRIBUTE N b (p : Int) (m : Int)).2 := by
      by_cases hlt : p < m
      · have h3 := hstep (p : Int) (by positivity) (by exact_mod_cast hlt)
        simp only [f, show p + 1 ≤ m by omega, if_true]
        push_cast
        exact h3
      · have hpe : p = m := by omega
        subst hpe
        simp only [f, show ¬ (p + 1 ≤ p) by omega, if_false]
        exact hlast.symm
    refine ⟨(p : Int), ⟨by positivity, by exact_mod_cast hpm, by omega, by omega⟩, ?_⟩
    rintro y ⟨hy0, hyP, hy1, hy2⟩
    by_contra hne
    rcases lt_or_gt_of_ne hne with hlt | hgt
    · have hyP' : y < (m : Int) := by omega
      have h3 := hstep y hy0 hyP'
      have h4 := hmono (y + 1) (p : Int) (by omega) (by omega) (by exact_mod_cast hpm)
      omega
    · have hpP' : (p : Int) < (m : Int) := by omega
      have h3 := hstep (p : Int) (by positivity) hpP'
      have h4 := hmono ((p : Int) + 1) y (by positivity) (by omega) hyP
      omega


/-- Witness of C2 at `N = 17`, block size `3`, `P = 3`. -/
theorem DISTRIBUTE_ranges_partition_witness :
    (0 : Int) ≤ 17 ∧ (17 : Int) < 2 ^ 31 ∧ (1 : Int) ≤ 3 ∧ (3 : Int) < 2 ^ 31 ∧
    ((DISTRIBUTE 17 3 0 3).1 = 0 ∧
    (∀ p, 0 ≤ p → p ≤ 3 → 0 ≤ (DISTRIBUTE 17 3 p 3).2) ∧
    (∀ p, 0 ≤ p → p < 3 →
      (DISTRIBUTE 17 3 (p + 1) 3).1 = (DISTRIBUTE 17 3 p 3).1 + (DISTRIBUTE 17 3 p 3).2) ∧
    (DISTRIBUTE 17 3 3 3).1 + (DISTRIBUTE 17 3 3 3).2 = 17 ∧
    (∀ k, 0 ≤ k → k < 17 → ∃! p, 0 ≤ p ∧ p ≤ 3 ∧
      (DISTRIBUTE 17 3 p 3).1 ≤ k ∧ k < (DISTRIBUTE 17 3 p 3).1 + (DISTRIBUTE 17 3 p 3).2)) :=
  ⟨by decide, by decide, by decide, by decide,
    DISTRIBUTE_ranges_partition 17 3 3 (by decide) (by decide) (by decide) (by decide)
      (by decide)⟩

/-- C3: for every `N >= 0`, block size `b >= 1`, `P >= 1` (values of `int`) and every
worker `p` in `[0, P)`, both the first item `i` and the count `n` that `DISTRIBUTE`
assigns to worker `p` are multiples of the block size. -/
theorem DISTRIBUTE_worker_block_multiple (N b p P : Int) (hN : 0 ≤ N) (hN' : N < 2 ^ 31)
    (hb : 1 ≤ b) (hP : 1 ≤ P) (hP' : P < 2 ^ 31) (hp : 0 ≤ p) (hpP : p < P) :
    b ∣ (DISTRIBUTE N b p P).1 ∧ b ∣ (DISTRIBUTE N b p P).2 := by
  rw [DISTRIBUTE_fst N b p P hN hN' hb hP hP' hp hpP.le,
    DISTRIBUTE_snd_worker N b p P hN hN' hb hP hP' hp hpP]
  exact ⟨Dvd.intro _ rfl, Int.dvd_sub (Dvd.intro _ rfl) (Dvd.intro _ rfl)⟩

/-- Witness of C3 at `N = 17`, block size `3`, worker `1` of `P = 3`. -/
theorem DISTRIBUTE_worker_block_multiple_witness :
    (0 : Int) ≤ 17 ∧ (17 : Int) < 2 ^ 31 ∧ (1 : Int) ≤ 3 ∧ (3 : Int) < 2 ^ 31 ∧
    (0 : Int) ≤ 1 ∧ (1 : Int) < 3 ∧
      (3 : Int) ∣ (DISTRIBUTE 17 3 1 3).1 ∧ (3 : Int) ∣ (DISTRIBUTE 17 3 1 3).2 :=
  ⟨by decide, by decide, by decide, by decide, by decide, by decide,
    DISTRIBUTE_worker_block_multiple 17 3 1 3 (by decide) (by decide) (by decide)
      (by decide) (by decide) (by decide) (by decide)⟩

/-- C4: for every `N >= 0`, block size `b >= 1` and `P >= 1` (values of `int`), the
dispatcher share (`p == P`) of `DISTRIBUTE` is what the workers leave over: its count is
`N mod b`, its first item is `b * (N div b)`, and it ends at item `N`. -/
theorem DISTRIBUTE_dispatcher_share (N b P : Int) (hN : 0 ≤ N) (hN' : N < 2 ^ 31)
    (hb : 1 ≤ b) (hP : 1 ≤ P) (hP' : P < 2 ^ 31) :
    (DISTRIBUTE N b P P).2 = N % b ∧
    (DISTRIBUTE N b P P).1 = b * (N / b) ∧
    (DISTRIBUTE N b P P).1 + (DISTRIBUTE N b P P).2 = N := by
  have hq : 0 ≤ N / b := Int.ediv_nonneg hN (by omega)
  have hqN : N / b ≤ N := Int.ediv_le_self b hN
  rw [DISTRIBUTE_fst N b P P hN hN' hb hP hP' (by omega) le_rfl,
    DISTRIBUTE_snd_dispatcher N b P hN hb, share_last (N / b) P hq (by omega) hP hP']
  refine ⟨rfl, rfl, ?_⟩
  have := Int.emod_add_ediv N b
  omega

/-- Witness of C4 at `N = 17`, block size `3`, `P = 3`: the dispatcher gets the items
`15` and `16`. -/
theorem DISTRIBUTE_dispatcher_share_witness :
    (0 : Int) ≤ 17 ∧ (17 : Int) < 2 ^ 31 ∧ (1 : Int) ≤ 3 ∧ (3 : Int) < 2 ^ 31 ∧
      (DISTRIBUTE 17 3 3 3).2 = 17 % 3 ∧
      (DISTRIBUTE 17 3 3 3).1 = 3 * (17 / 3) ∧
      (DISTRIBUTE 17 3 3 3).1 + (DISTRIBUTE 17 3 3 3).2 = 17 :=
  ⟨by decide, by decide, by decide, by decide,
    DISTRIBUTE_dispatcher_share 17 3 3 (by decide) (by decide) (by decide) (by decide)
      (by decide)⟩

/-- The share of pipeline `7` of `14` for `61` blocks: `fl(61/14) * 7` is just below
`30.5`, so the cast gives `30`, not the `31` of the exact reading. -/
theorem share_example_e : share 61 14 7 = 30 := by
  have ht : binary64 ((61 : ℚ) / 14) = ((4905706736957147 : ℚ) / 1125899906842624) := by
    have h := binary64_eq_of_near ((61 : ℚ) / 14) (2) (4905706736957147) (by norm_num) (by norm_num) (by norm_num)
      (by norm_num) (by norm_num)
    rw [h]
    norm_num
  have ha : binary64 ((34339947158700029 : ℚ) / 1125899906842624) = ((8584986789675007 : ℚ) / 281474976710656) := by
    have h := binary64_eq_of_near ((34339947158700029 : ℚ) / 1125899906842624) (4) (8584986789675007) (by norm_num) (by norm_num) (by norm_num)
      (by norm_num) (by norm_num)
    rw [h]
    norm_num
  have hy : binary64 ((8725724278030335 : ℚ) / 281474976710656) = ((8725724278030335 : ℚ) / 281474976710656) := by
    have h := binary64_eq_of_near ((8725724278030335 : ℚ) / 281474976710656) (4) (8725724278030335) (by norm_num) (by norm_num) (by norm_num)
      (by norm_num) (by norm_num)
    rw [h]
    norm_num
  have e1 : (((61 : Int) : ℚ) / ((14 : Int) : ℚ)) = ((61 : ℚ) / 14) := by norm_num
  have e2 : ((4905706736957147 : ℚ) / 1125899906842624) * (((7 : Int)) : ℚ) = ((34339947158700029 : ℚ) / 1125899906842624) := by norm_num
  have e3 : ((8584986789675007 : ℚ) / 281474976710656) + 1 / 2 = ((8725724278030335 : ℚ) / 281474976710656) := by norm_num
  unfold share
  rw [e1, ht, e2, ha, e3, hy, truncToInt_of_nonneg _ (by norm_num), Int.floor_eq_iff]
  constructor <;> norm_num

/-- The share of pipeline `8` of `14` for `61` blocks. -/
theorem share_example_f : share 61 14 8 = 35 := by
  have ht : binary64 ((61 : ℚ) / 14) = ((4905706736957147 : ℚ) / 1125899906842624) := by
    have h := binary64_eq_of_near ((61 : ℚ) / 14) (2) (4905706736957147) (by norm_num) (by norm_num) (by norm_num)
      (by norm_num) (by norm_num)
    rw [h]
    norm_num
  have ha : binary64 ((4905706736957147 : ℚ) / 140737488355328) = ((4905706736957147 : ℚ) / 140737488355328) := by
    have h := binary64_eq_of_near ((4905706736957147 : ℚ) / 140737488355328) (5) (4905706736957147) (by norm_num) (by norm_num) (by norm_num)
      (by norm_num) (by norm_num)
    rw [h]
    norm_num
  have hy : binary64 ((4976075481134811 : ℚ) / 140737488355328) = ((4976075481134811 : ℚ) / 140737488355328) := by
    have h := binary64_eq_of_near ((4976075481134811 : ℚ) / 140737488355328) (5) (4976075481134811) (by norm_num) (by norm_num) (by norm_num)
      (by norm_num) (by norm_num)
    rw [h]
    norm_num
  have e1 : (((61 : Int) : ℚ) / ((14 : Int) : ℚ)) = ((61 : ℚ) / 14) := by norm_num
  have e2 : ((4905706736957147 : ℚ) / 1125899906842624) * (((8 : Int)) : ℚ) = ((4905706736957147 : ℚ) / 140737488355328) := by norm_num
  have e3 : ((4905706736957147 : ℚ) / 140737488355328) + 1 / 2 = ((4976075481134811 : ℚ) / 140737488355328) := by norm_num
  unfold share
  rw [e1, ht, e2, ha, e3, hy, truncToInt_of_nonneg _ (by norm_num), Int.floor_eq_iff]
  constructor <;> norm_num

/-- The rounding is visible in the result: for `N = 61` items in blocks of `1` and `P = 14`,
pipeline `7` starts at item `30` and gets `5` items, where the exact reading gives a start
at `31` and `4` items. -/
theorem DISTRIBUTE_rounding_example :
    DISTRIBUTE 61 1 7 14 = (30, 5) ∧ DISTRIBUTE_exact 61 1 7 14 = (31, 4) := by
  constructor
  · have h1 := DISTRIBUTE_fst 61 1 7 14 (by norm_num) (by norm_num) (by norm_num)
      (by norm_num) (by norm_num) (by norm_num) (by norm_num)
    have h2 := DISTRIBUTE_snd_worker 61 1 7 14 (by norm_num) (by norm_num) (by norm_num)
      (by norm_num) (by norm_num) (by norm_num) (by norm_num)
    have e : (61 : Int) / 1 = 61 := by norm_num
    have e' : (7 : Int) + 1 = 8 := by norm_num
    rw [e, share_example_e] at h1
    rw [e, e', share_example_e, share_example_f] at h2
    exact Prod.ext (by rw [h1]; norm_num) (by rw [h2]; norm_num)
  · have h1 := DISTRIBUTE_exact_fst 61 1 7 14 (by norm_num) (by norm_num) (by norm_num)
      (by norm_num)
    have h2 := DISTRIBUTE_exact_snd_worker 61 1 7 14 (by norm_num) (by norm_num)
      (by norm_num) (by norm_num) (by norm_num)
    exact Prod.ext (by rw [h1]; norm_num [blockStart]) (by rw [h2]; norm_num [blockStart])

/-! ## Workload distribution: balance of the worker shares -/

/-- The rounded share before worker `268435458`, of `536870907` blocks among `2^29` workers. -/
theorem share_example_a : share 536870907 536870912 268435458 = 268435455 := by
  have ht : binary64 ((536870907 : ℚ) / 536870912) = ((536870907 : ℚ) / 536870912) := by
    have h := binary64_eq_of_near ((536870907 : ℚ) / 536870912) (-1) (9007199170854912) (by norm_num) (by norm_num) (by norm_num)
      (by norm_num) (by norm_num)
    rw [h]
    norm_num
  have ha : binary64 ((72057593903710203 : ℚ) / 268435456) = ((9007199237963775 : ℚ) / 33554432) := by
    have h := binary64_eq_of_near ((72057593903710203 : ℚ) / 268435456) (27) (9007199237963775) (by norm_num) (by norm_num) (by norm_num)
      (by norm_num) (by norm_num)
    rw [h]
    norm_num
  have hy : binary64 ((9007199254740991 : ℚ) / 33554432) = ((9007199254740991 : ℚ) / 33554432) := by
    have h := binary64_eq_of_near ((9007199254740991 : ℚ) / 33554432) (27) (9007199254740991) (by norm_num) (by norm_num) (by norm_num)
      (by norm_num) (by norm_num)
    rw [h]
    norm_num
  have e1 : (((536870907 : Int) : ℚ) / ((536870912 : Int) : ℚ)) = ((536870907 : ℚ) / 536870912) := by norm_num
  have e2 : ((536870907 : ℚ) / 536870912) * (((268435458 : Int)) : ℚ) = ((72057593903710203 : ℚ) / 268435456) := by norm_num
  have e3 : ((9007199237963775 : ℚ) / 33554432) + 1 / 2 = ((9007199254740991 : ℚ) / 33554432) := by norm_num
  unfold share
  rw [e1, ht, e2, ha, e3, hy, truncToInt_of_nonneg _ (by norm_num), Int.floor_eq_iff]
  constructor <;> norm_num

/-- The rounded share after worker `268435458`, of `536870907` blocks among `2^29` workers. -/
theorem share_example_b : share 536870907 536870912 268435459 = 268435457 := by
  have ht : binary64 ((536870907 : ℚ) / 536870912) = ((536870907 : ℚ) / 536870912) := by
    have h := binary64_eq_of_near ((536870907 : ℚ) / 536870912) (-1) (9007199170854912) (by norm_num) (by norm_num) (by norm_num)
      (by norm_num) (by norm_num)
    rw [h]
    norm_num
  have ha : binary64 ((144115188344291313 : ℚ) / 536870912) = ((536870913 : ℚ) / 2) := by
    have h := binary64_eq_of_near ((144115188344291313 : ℚ) / 536870912) (28) (4503599635759104) (by norm_num) (by norm_num) (by norm_num)
      (by norm_num) (by norm_num)
    rw [h]
    norm_num
  have hy : binary64 (268435457 : ℚ) = (268435457 : ℚ) := by
    have h := binary64_eq_of_near (268435457 : ℚ) (28) (4503599644147712) (by norm_num) (by norm_num) (by norm_num)
      (by norm_num) (by norm_num)
    rw [h]
    norm_num
  have e1 : (((536870907 : Int) : ℚ) / ((536870912 : Int) : ℚ)) = ((536870907 : ℚ) / 536870912) := by norm_num
  have e2 : ((536870907 : ℚ) / 536870912) * (((268435459 : Int)) : ℚ) = ((144115188344291313 : ℚ) / 536870912) := by norm_num
  have e3 : ((536870913 : ℚ) / 2) + 1 / 2 = (268435457 : ℚ) := by norm_num
  unfold share
  rw [e1, ht, e2, ha, e3, hy, truncToInt_of_nonneg _ (by norm_num), Int.floor_eq_iff]
  constructor <;> norm_num

/-- The rounded share before worker `53687091`, of `536870907` blocks among `2^29` workers. -/
theorem share_example_c : share 536870907 536870912 53687091 = 53687091 := by
  have ht : binary64 ((536870907 : ℚ) / 536870912) = ((536870907 : ℚ) / 536870912) := by
    have h := binary64_eq_of_near ((536870907 : ℚ) / 536870912) (-1) (9007199170854912) (by norm_num) (by norm_num) (by norm_num)
      (by norm_num) (by norm_num)
    rw [h]
    norm_num
  have ha : binary64 ((28823037239361537 : ℚ) / 536870912) = ((107374181 : ℚ) / 2) := by
    have h := binary64_eq_of_near ((28823037239361537 : ℚ) / 536870912) (25) (7205759309840384) (by norm_num) (by norm_num) (by norm_num)
      (by norm_num) (by norm_num)
    rw [h]
    norm_num
  have hy : binary64 (53687091 : ℚ) = (53687091 : ℚ) := by
    have h := binary64_eq_of_near (53687091 : ℚ) (25) (7205759376949248) (by norm_num) (by norm_num) (by norm_num)
      (by norm_num) (by norm_num)
    rw [h]
    norm_num
  have e1 : (((536870907 : Int) : ℚ) / ((536870912 : Int) : ℚ)) = ((536870907 : ℚ) / 536870912) := by norm_num
  have e2 : ((536870907 : ℚ) / 536870912) * (((53687091 : Int)) : ℚ) = ((28823037239361537 : ℚ) / 536870912) := by norm_num
  have e3 : ((107374181 : ℚ) / 2) + 1 / 2 = (53687091 : ℚ) := by norm_num
  unfold share
  rw [e1, ht, e2, ha, e3, hy, truncToInt_of_nonneg _ (by norm_num), Int.floor_eq_iff]
  constructor <;> norm_num

/-- The rounded share after worker `53687091`, of `536870907` blocks among `2^29` workers. -/
theorem share_example_d : share 536870907 536870912 53687092 = 53687091 := by
  have ht : binary64 ((536870907 : ℚ) / 536870912) = ((536870907 : ℚ) / 536870912) := by
    have h := binary64_eq_of_near ((536870907 : ℚ) / 536870912) (-1) (9007199170854912) (by norm_num) (by norm_num) (by norm_num)
      (by norm_num) (by norm_num)
    rw [h]
    norm_num
  have ha : binary64 ((7205759444058111 : ℚ) / 134217728) = ((7205759444058111 : ℚ) / 134217728) := by
    have h := binary64_eq_of_near ((7205759444058111 : ℚ) / 134217728) (25) (7205759444058111) (by norm_num) (by norm_num) (by norm_num)
      (by norm_num) (by norm_num)
    rw [h]
    norm_num
  have hy : binary64 ((7205759511166975 : ℚ) / 134217728) = ((7205759511166975 : ℚ) / 134217728) := by
    have h := binary64_eq_of_near ((7205759511166975 : ℚ) / 134217728) (25) (7205759511166975) (by norm_num) (by norm_num) (by norm_num)
      (by norm_num) (by norm_num)
    rw [h]
    norm_num
  have e1 : (((536870907 : Int) : ℚ) / ((536870912 : Int) : ℚ)) = ((536870907 : ℚ) / 536870912) := by norm_num
  have e2 : ((536870907 : ℚ) / 536870912) * (((53687092 : Int)) : ℚ) = ((7205759444058111 : ℚ) / 134217728) := by norm_num
  have e3 : ((7205759444058111 : ℚ) / 134217728) + 1 / 2 = ((7205759511166975 : ℚ) / 134217728) := by norm_num
  unfold share
  rw [e1, ht, e2, ha, e3, hy, truncToInt_of_nonneg _ (by norm_num), Int.floor_eq_iff]
  constructor <;> norm_num

/-- C14, counterexample: with `N = 536870907` items in blocks of `1` and `P = 2^29`
workers, worker `268435458` gets `2` items and worker `53687091` gets none, where
`(N div b) / P` lies between `0` and `1`: the two counts differ by two blocks. -/
theorem DISTRIBUTE_worker_balance_fails :
    (DISTRIBUTE 536870907 1 268435458 536870912).2 = 2 ∧
    (DISTRIBUTE 536870907 1 53687091 536870912).2 = 0 ∧
    ¬ (|(DISTRIBUTE 536870907 1 268435458 536870912).2
        - (DISTRIBUTE 536870907 1 53687091 536870912).2| ≤ 1) := by
  have h1 : (DISTRIBUTE 536870907 1 268435458 536870912).2 = 2 := by
    rw [DISTRIBUTE_snd_worker 536870907 1 268435458 536870912 (by norm_num) (by norm_num)
      (by norm_num) (by norm_num) (by norm_num) (by norm_num) (by norm_num)]
    have e : (536870907 : Int) / 1 = 536870907 := by norm_num
    have e' : (268435458 : Int) + 1 = 268435459 := by norm_num
    rw [e, e', share_example_a, share_example_b]
    norm_num
  have h2 : (DISTRIBUTE 536870907 1 53687091 536870912).2 = 0 := by
    rw [DISTRIBUTE_snd_worker 536870907 1 53687091 536870912 (by norm_num) (by norm_num)
      (by norm_num) (by norm_num) (by norm_num) (by norm_num) (by norm_num)]
    have e : (536870907 : Int) / 1 = 536870907 := by norm_num
    have e' : (53687091 : Int) + 1 = 53687092 := by norm_num
    rw [e, e', share_example_c, share_example_d]
    norm_num
  refine ⟨h1, h2, ?_⟩
  rw [h1, h2]
  norm_num

/-- Error of the rounded argument of the cast: the three roundings of
`(int)(_t*(double)_p + 0.5)` move it by at most `(3 q + 1) * 2^-53` from the exact
`q * p / P + 1/2`, for `q` of at most 50 bits. -/
theorem share_arg_error (q P p : Int) (hq : 0 ≤ q) (hP : 1 ≤ P) (hp : 0 ≤ p) (hpP : p ≤ P)
    (hb : (q + 1) * P ≤ 2 ^ 50) :
    |binary64 (binary64 (binary64 ((q : ℚ) / (P : ℚ)) * (p : ℚ)) + 1 / 2)
      - ((q : ℚ) / (P : ℚ) * (p : ℚ) + 1 / 2)| ≤ 2 ^ (-53 : Int) * (3 * (q : ℚ) + 1) := by
  have hPq : (0 : ℚ) < (P : ℚ) := by exact_mod_cast (by omega : 0 < P)
  have hqq : (0 : ℚ) ≤ (q : ℚ) := by exact_mod_cast hq
  have hpq : (0 : ℚ) ≤ (p : ℚ) := by exact_mod_cast hp
  have hpPq : (p : ℚ) ≤ (P : ℚ) := by exact_mod_cast hpP
  have hq50 : (q : ℚ) ≤ 2 ^ 50 := by
    have : q ≤ 2 ^ 50 := by nlinarith
    exact_mod_cast this
  have hP50 : (P : ℚ) ≤ 2 ^ 50 := by
    have : P ≤ 2 ^ 50 := by nlinarith
    exact_mod_cast this
  have hu : (2 : ℚ) ^ (-53 : Int) = 1 / 9007199254740992 := by norm_num
  rw [hu]
  rcases hq.eq_or_lt with h0 | hqpos
  · have hq0 : (q : ℚ) = 0 := by rw [← h0]; simp
    rw [hq0]
    simp only [zero_div, binary64_zero, zero_mul, zero_add, binary64_half, sub_self, abs_zero]
    norm_num
  rcases hp.eq_or_lt with hp0 | hppos
  · have hp0' : (p : ℚ) = 0 := by rw [← hp0]; simp
    rw [hp0']
    simp only [mul_zero, binary64_zero, zero_add, binary64_half, sub_self, abs_zero]
    positivity
  have hq1 : (1 : ℚ) ≤ (q : ℚ) := by exact_mod_cast (by omega : 1 ≤ q)
  have hp1 : (1 : ℚ) ≤ (p : ℚ) := by exact_mod_cast (by omega : 1 ≤ p)
  -- the quotient and its rounding
  have hx50 : (2 : ℚ) ^ (-50 : Int) ≤ (q : ℚ) / (P : ℚ) := by
    rw [le_div_iff₀ hPq]
    have : (2 : ℚ) ^ (-50 : Int) = 1 / 2 ^ 50 := by norm_num
    rw [this]
    have : (1 : ℚ) / 2 ^ 50 * (P : ℚ) ≤ 1 := by
      rw [div_mul_eq_mul_div, one_mul, div_le_one (by positivity)]
      exact hP50
    linarith
  have hxn : (2 : ℚ) ^ (-1022 : Int) ≤ (q : ℚ) / (P : ℚ) :=
    le_trans (two_zpow_le (by norm_num)) hx50
  have ht := binary64_error _ hxn
  rw [hu, abs_le] at ht
  have hxp : (q : ℚ) / (P : ℚ) * (p : ℚ) ≤ (q : ℚ) := by
    rw [div_mul_eq_mul_div, div_le_iff₀ hPq]
    exact mul_le_mul_of_nonneg_left hpPq hqq
  have hx0 : (0 : ℚ) ≤ (q : ℚ) / (P : ℚ) := div_nonneg hqq hPq.le
  have hxp0 : (0 : ℚ) ≤ (q : ℚ) / (P : ℚ) * (p : ℚ) := mul_nonneg hx0 hpq
  have h50v : (2 : ℚ) ^ (-50 : Int) = 1 / 1125899906842624 := by norm_num
  have h1022 : (2 : ℚ) ^ (-1022 : Int) ≤ 2 ^ (-51 : Int) := two_zpow_le (by norm_num)
  have h51v : (2 : ℚ) ^ (-51 : Int) = 1 / 2251799813685248 := by norm_num
  rw [h50v] at hx50
  -- the product and its rounding
  have hw1 := mul_le_mul_of_nonneg_right ht.1 hpq
  have hw2 := mul_le_mul_of_nonneg_right ht.2 hpq
  have hwt : binary64 ((q : ℚ) / (P : ℚ)) ≤ binary64 ((q : ℚ) / (P : ℚ)) * (p : ℚ) := by
    have := binary64_nonneg hx0
    nlinarith
  have hwn : (2 : ℚ) ^ (-1022 : Int) ≤ binary64 ((q : ℚ) / (P : ℚ)) * (p : ℚ) := by
    refine le_trans h1022 ?_
    rw [h51v]
    linarith
  have ha := binary64_error _ hwn
  rw [hu, abs_le] at ha
  -- the sum and its rounding
  have ha0 : (0 : ℚ) ≤ binary64 (binary64 ((q : ℚ) / (P : ℚ)) * (p : ℚ)) :=
    binary64_nonneg (le_trans (two_zpow_pos _).le hwn)
  have hsn : (2 : ℚ) ^ (-1022 : Int) ≤ binary64 (binary64 ((q : ℚ) / (P : ℚ)) * (p : ℚ)) + 1 / 2 := by
    have : (2 : ℚ) ^ (-1022 : Int) ≤ 2 ^ (-1 : Int) := two_zpow_le (by norm_num)
    have h2 : (2 : ℚ) ^ (-1 : Int) = 1 / 2 := by norm_num
    linarith
  have hy := binary64_error _ hsn
  rw [hu, abs_le] at hy
  rw [abs_le]
  constructor <;> linarith


/-- When `P` divides the number of blocks `q`, every rounding is exact and the rounded share
of the boundary `p` is `(q / P) * p`. -/
theorem share_of_dvd (q P p : Int) (hq : 0 ≤ q) (hP : 1 ≤ P) (hp : 0 ≤ p) (hpP : p ≤ P)
    (hb : q ≤ 2 ^ 50) (hd : q % P = 0) : share q P p = q / P * p := by
  have hPq : (0 : ℚ) < (P : ℚ) := by exact_mod_cast (by omega : 0 < P)
  have hk0 : 0 ≤ q / P := Int.ediv_nonneg hq (by omega)
  have hqk : q = P * (q / P) := by
    have := Int.emod_add_ediv q P
    omega
  have hkq : q / P * p ≤ q := by
    have h1 : q / P * p ≤ q / P * P := Int.mul_le_mul_of_nonneg_left hpP hk0
    have h2 : q / P * P = q := by rw [mul_comm]; exact hqk.symm
    omega
  have hkk : q / P ≤ q := Int.ediv_le_self P hq
  have hx : (q : ℚ) / (P : ℚ) = ((q / P : Int) : ℚ) := by
    rw [div_eq_iff hPq.ne']
    have : ((q : Int) : ℚ) = (((q / P) * P : Int) : ℚ) := by
      congr 1
      rw [mul_comm]
      exact hqk
    rw [this]
    push_cast
    ring
  have hw : ((q / P : Int) : ℚ) * (p : ℚ) = ((q / P * p : Int) : ℚ) := by push_cast; ring
  have hs : ((q / P * p : Int) : ℚ) + 1 / 2 = ((4 * (q / P * p) + 2 : Int) : ℚ) / 4 := by
    push_cast
    ring
  have hkp0 : 0 ≤ q / P * p := Int.mul_nonneg hk0 hp
  unfold share
  rw [hx, binary64_intCast _ hk0 (by omega), hw, binary64_intCast _ hkp0 (by omega), hs,
    binary64_quarters _ (by omega) (by omega), ← hs,
    truncToInt_of_nonneg _ (by
      have : (0 : ℚ) ≤ ((q / P * p : Int) : ℚ) := by exact_mod_cast hkp0
      linarith), Int.floor_eq_iff]
  constructor <;> linarith

/-- The number of blocks of a worker on the machine: for `q` blocks and `P` workers with
`(q + 1) * P` of at most 50 bits, the step between two rounded shares is the quotient
`q / P` or one more, and exactly the quotient when `P` divides `q`. -/
theorem share_step (q P p : Int) (hq : 0 ≤ q) (hP : 1 ≤ P) (hp : 0 ≤ p) (hpP : p < P)
    (hb : (q + 1) * P ≤ 2 ^ 50) :
    (share q P (p + 1) - share q P p = q / P ∨ share q P (p + 1) - share q P p = q / P + 1) ∧
    (q % P = 0 → share q P (p + 1) - share q P p = q / P) := by
  have hq50 : q ≤ 2 ^ 50 := by nlinarith
  have hdvd : q % P = 0 → share q P (p + 1) - share q P p = q / P := by
    intro hd
    rw [share_of_dvd q P (p + 1) hq hP (by omega) (by omega) hq50 hd,
      share_of_dvd q P p hq hP hp hpP.le hq50 hd]
    ring
  refine ⟨?_, hdvd⟩
  by_cases hd : q % P = 0
  · exact Or.inl (hdvd hd)
  have hPq : (0 : ℚ) < (P : ℚ) := by exact_mod_cast (by omega : 0 < P)
  have hr0 := Int.emod_nonneg q (by omega : P ≠ 0)
  have hr1 := Int.emod_lt_of_pos q (by omega : 0 < P)
  have hqk := Int.emod_add_ediv q P
  -- the exact quotient is q / P + r / P with 1 ≤ r ≤ P - 1
  have hi : (0 : ℚ) < (P : ℚ)⁻¹ := inv_pos.mpr hPq
  have hPi : (P : ℚ) * (P : ℚ)⁻¹ = 1 := mul_inv_cancel₀ hPq.ne'
  have hx : (q : ℚ) / (P : ℚ) = ((q / P : Int) : ℚ) + ((q % P : Int) : ℚ) * (P : ℚ)⁻¹ := by
    have : (q : ℚ) = (((q % P) + P * (q / P) : Int) : ℚ) := by rw [hqk]
    rw [div_eq_mul_inv]
    nth_rewrite 1 [this]
    push_cast
    linear_combination ((q / P : Int) : ℚ) * hPi
  have hrlo : (P : ℚ)⁻¹ ≤ ((q % P : Int) : ℚ) * (P : ℚ)⁻¹ := by
    have : (1 : ℚ) ≤ ((q % P : Int) : ℚ) := by exact_mod_cast (by omega : 1 ≤ q % P)
    exact le_mul_of_one_le_left hi.le this
  have hrhi : ((q % P : Int) : ℚ) * (P : ℚ)⁻¹ ≤ 1 - (P : ℚ)⁻¹ := by
    have : ((q % P : Int) : ℚ) ≤ (P : ℚ) - 1 := by
      have : q % P ≤ P - 1 := by omega
      exact_mod_cast this
    have h := mul_le_mul_of_nonneg_right this hi.le
    have e : ((P : ℚ) - 1) * (P : ℚ)⁻¹ = 1 - (P : ℚ)⁻¹ := by rw [sub_mul, hPi, one_mul]
    linarith
  -- twice the rounding error is below 1 / P
  have hu : (2 : ℚ) ^ (-53 : Int) = 1 / 9007199254740992 := by norm_num
  have hE : (2 : ℚ) ^ (-53 : Int) * (3 * (q : ℚ) + 1) ≤ 3 / 8 * (P : ℚ)⁻¹ := by
    rw [hu]
    have hbq : ((q : ℚ) + 1) * (P : ℚ) ≤ 2 ^ 50 := by exact_mod_cast hb
    have h1 : (3 * (q : ℚ) + 1) * (P : ℚ) ≤ 3 * 2 ^ 50 := by nlinarith
    have h2 : 3 * (q : ℚ) + 1 = (3 * (q : ℚ) + 1) * (P : ℚ) * (P : ℚ)⁻¹ := by
      rw [mul_assoc, hPi, mul_one]
    rw [h2]
    have h3 := mul_le_mul_of_nonneg_right h1 hi.le
    norm_num at h3 ⊢
    linarith
  have e0 := share_arg_error q P p hq hP hp hpP.le hb
  have e1 := share_arg_error q P (p + 1) hq hP (by omega) (by omega) hb
  rw [abs_le] at e0 e1
  have n0 := share_nonneg_arg q P p hq hP hp
  have n1 := share_nonneg_arg q P (p + 1) hq hP (by omega)
  have hxp : (q : ℚ) / (P : ℚ) * ((p + 1 : Int) : ℚ)
      = (q : ℚ) / (P : ℚ) * (p : ℚ) + (q : ℚ) / (P : ℚ) := by push_cast; ring
  rw [hxp] at e1
  unfold share
  rw [truncToInt_of_nonneg _ n0, truncToInt_of_nonneg _ n1]
  generalize binary64 (binary64 (binary64 ((q : ℚ) / (P : ℚ)) * (p : ℚ)) + 1 / 2) = Y0
    at e0 n0 ⊢
  generalize binary64 (binary64 (binary64 ((q : ℚ) / (P : ℚ)) * ((p + 1 : Int) : ℚ)) + 1 / 2)
    = Y1 at e1 n1 ⊢
  have f0 := Int.floor_le Y0
  have g0 := Int.lt_floor_add_one Y0
  have f1 := Int.floor_le Y1
  have g1 := Int.lt_floor_add_one Y1
  have lo : ((⌊Y0⌋ + q / P - 1 : Int) : ℚ) < ((⌊Y1⌋ : Int) : ℚ) := by
    push_cast
    linarith [e0.1, e0.2, e1.1, e1.2]
  have hi' : ((⌊Y1⌋ : Int) : ℚ) < ((⌊Y0⌋ + q / P + 2 : Int) : ℚ) := by
    push_cast
    linarith [e0.1, e0.2, e1.1, e1.2]
  have lo' := Int.cast_lt.mp lo
  have hi'' := Int.cast_lt.mp hi'
  omega

/-- The rational floor of `Q / P` is the integer quotient. -/
theorem floor_div_eq (Q P : Int) (hP : 1 ≤ P) : ⌊(Q : ℚ) / (P : ℚ)⌋ = Q / P := by
  obtain ⟨k, rfl⟩ := Int.eq_ofNat_of_zero_le (by omega : 0 ≤ P)
  exact_mod_cast Rat.floor_intCast_div_natCast Q k

/-- The rational ceiling of `Q / P` is one more than the quotient when `P` does not divide
`Q`. -/
theorem ceil_div_eq (Q P : Int) (hP : 1 ≤ P) (hne : Q % P ≠ 0) :
    ⌈(Q : ℚ) / (P : ℚ)⌉ = Q / P + 1 := by
  have h0 := Int.emod_nonneg Q (by omega : P ≠ 0)
  have h1 := Int.emod_lt_of_pos Q (by omega : 0 < P)
  have hQP := Int.emod_add_ediv Q P
  have hPq : (0 : ℚ) < (P : ℚ) := by exact_mod_cast (by omega : 0 < P)
  rw [Int.ceil_eq_iff]
  constructor
  · rw [lt_div_iff₀ hPq]
    have h2 : (((Q / P) * P : Int) : ℚ) < (Q : ℚ) := by
      have : (Q / P) * P < Q := by
        have : P * (Q / P) < Q := by omega
        linarith
      exact_mod_cast this
    push_cast at h2 ⊢
    linarith
  · rw [div_le_iff₀ hPq]
    have h2 : (Q : ℚ) ≤ (((Q / P + 1) * P : Int) : ℚ) := by
      have : Q ≤ (Q / P + 1) * P := by
        have : Q < P * (Q / P) + P := by omega
        linarith
      exact_mod_cast this
    push_cast at h2 ⊢
    linarith

/-- C14, amended: for every `N >= 0`, block size `b >= 1` and `P >= 1` (values of `int`)
with `(N div b + 1) * P <= 2^50`, and any two workers `p`, `q` in `[0, P)`, the count of
worker `p` is the block size times the floor or the ceiling of `(N div b) / P`, and the
counts of `p` and `q` differ by at most one block. -/
theorem DISTRIBUTE_worker_balance (N b P p q : Int) (hN : 0 ≤ N) (hN' : N < 2 ^ 31)
    (hb : 1 ≤ b) (hP : 1 ≤ P) (hP' : P < 2 ^ 31) (hsmall : (N / b + 1) * P ≤ 2 ^ 50)
    (hp : 0 ≤ p) (hpP : p < P) (hq : 0 ≤ q) (hqP : q < P) :
    ((DISTRIBUTE N b p P).2 = b * ⌊((N / b : Int) : ℚ) / (P : ℚ)⌋ ∨
      (DISTRIBUTE N b p P).2 = b * ⌈((N / b : Int) : ℚ) / (P : ℚ)⌉) ∧
    |(DISTRIBUTE N b p P).2 - (DISTRIBUTE N b q P).2| ≤ b := by
  have hQ : 0 ≤ N / b := Int.ediv_nonneg hN (by omega)
  have hcount : ∀ w, 0 ≤ w → w < P → (DISTRIBUTE N b w P).2
      = b * (share (N / b) P (w + 1) - share (N / b) P w) := by
    intro w h0 h1
    rw [DISTRIBUTE_snd_worker N b w P hN hN' hb hP hP' h0 h1]
    ring
  rw [hcount p hp hpP, hcount q hq hqP]
  obtain ⟨hp1, hp2⟩ := share_step (N / b) P p hQ hP hp hpP hsmall
  obtain ⟨hq1, _⟩ := share_step (N / b) P q hQ hP hq hqP hsmall
  constructor
  · rw [floor_div_eq _ _ hP]
    rcases hp1 with h | h
    · left; rw [h]
    · right
      have hne : (N / b) % P ≠ 0 := by
        intro hz
        have := hp2 hz
        omega
      rw [ceil_div_eq _ _ hP hne, h]
  · rw [← mul_sub, abs_le]
    rcases hp1 with h | h <;> rcases hq1 with h' | h' <;> rw [h, h'] <;>
      constructor <;> ring_nf <;> omega

/-- Witness of C14 at `N = 17`, block size `3`, `P = 3`, workers `0` and `1`. -/
theorem DISTRIBUTE_worker_balance_witness :
    (0 : Int) ≤ 17 ∧ (17 : Int) < 2 ^ 31 ∧ (1 : Int) ≤ 3 ∧ (3 : Int) < 2 ^ 31 ∧
    ((17 : Int) / 3 + 1) * 3 ≤ 2 ^ 50 ∧ (0 : Int) < 3 ∧ (1 : Int) < 3 ∧
    ((DISTRIBUTE 17 3 0 3).2 = 3 * ⌊((17 / 3 : Int) : ℚ) / ((3 : Int) : ℚ)⌋ ∨
      (DISTRIBUTE 17 3 0 3).2 = 3 * ⌈((17 / 3 : Int) : ℚ) / ((3 : Int) : ℚ)⌉) ∧
    |(DISTRIBUTE 17 3 0 3).2 - (DISTRIBUTE 17 3 1 3).2| ≤ 3 :=
  ⟨by decide, by decide, by decide, by decide, by decide, by decide, by decide,
    DISTRIBUTE_worker_balance 17 3 3 0 1 (by decide) (by decide) (by decide) (by decide)
      (by decide) (by decide) (by decide) (by decide) (by decide) (by decide)⟩

/-! ## Global particle ids: `generate_particle_id` -/

/-- The exponent `id_base` is the ceiling of the real base ten logarithm of `max_np`. -/
theorem id_base_eq_ceil_log10 (n : Int) (h : 1 ≤ n) :
    ((id_base n : ℕ) : Int) = ⌈Real.logb 10 (n : ℝ)⌉ := by
  obtain ⟨m, rfl⟩ := Int.eq_ofNat_of_zero_le (by omega : 0 ≤ n)
  have h1 := Real.ceil_logb_natCast (b := 10) (r := (m : ℝ)) (by positivity)
  have h2 := Int.clog_natCast (R := ℝ) 10 m
  simp only [id_base, Int.toNat_ofNat]
  push_cast at h1 ⊢
  rw [h1, h2]

/-- The exponent `id_base` is the least `k` with `max_np ≤ 10 ^ k`. -/
theorem id_base_le_iff (n : Int) (k : ℕ) : id_base n ≤ k ↔ n ≤ (10 : Int) ^ k := by
  unfold id_base
  rw [← Nat.le_pow_iff_clog_le (by norm_num : 1 < 10), Int.toNat_le]
  push_cast
  rfl

theorem le_pow_id_base (n : Int) : n ≤ (10 : Int) ^ id_base n :=
  (id_base_le_iff n (id_base n)).mp le_rfl

/-- Evaluation of the exponent: `k` when `10 ^ (k - 1) < max_np ≤ 10 ^ k`. -/
theorem id_base_eq (n : Int) (k : ℕ) (h1 : n ≤ (10 : Int) ^ k)
    (h2 : (10 : Int) ^ (k - 1) < n ∨ k = 0) : id_base n = k := by
  apply le_antisymm ((id_base_le_iff n k).mpr h1)
  rcases h2 with h2 | h2
  · by_contra hc
    have hle : id_base n ≤ k - 1 := by omega
    have := (id_base_le_iff n (k - 1)).mp hle
    omega
  · omega

theorem id_base_128 : id_base 128 = 3 :=
  id_base_eq 128 3 (by norm_num) (by norm_num)

theorem id_base_100 : id_base 100 = 2 :=
  id_base_eq 100 2 (by norm_num) (by norm_num)

/-- Evaluation of `generate_particle_id` from the values of its intermediate doubles. -/
theorem generate_particle_id_eval (NDEBUG : Bool) (i max_np scale_factor this_rank : Int)
    (k : ℕ) (pw a g : ℚ) (z : Int) (hs : 0 < scale_factor) (hm : 1 ≤ max_np)
    (hk : id_base max_np = k) (hpw : binary64 ((10 : ℚ) ^ k) = pw)
    (ha : binary64 (pw * ((wrap32 (this_rank * scale_factor) : Int) : ℚ)) = a)
    (hg : binary64 (a + (i : ℚ)) = g) (hz : truncToInt g = z) (hz0 : 0 ≤ z)
    (hz1 : z < 2 ^ 64) :
    generate_particle_id NDEBUG i max_np scale_factor this_rank = Except.ok z := by
  unfold generate_particle_id
  rw [if_neg (by simp; intro _; exact hs), if_neg (by omega)]
  simp only [hk, hpw, ha, hg, hz]
  rw [if_pos ⟨hz0, hz1⟩]

/-- The value returned where the arithmetic is exact: the rank times the scale fits an
`int` and the id is an integer of at most 53 bits. -/
theorem generate_particle_id_exact (NDEBUG : Bool) (i max_np scale_factor this_rank : Int)
    (hm : 1 ≤ max_np) (hs : 1 ≤ scale_factor) (hr : 0 ≤ this_rank) (hi : 0 ≤ i)
    (hprod : this_rank * scale_factor < 2 ^ 31)
    (hid : (10 : Int) ^ id_base max_np * (this_rank * scale_factor) + i ≤ 2 ^ 53) :
    generate_particle_id NDEBUG i max_np scale_factor this_rank
      = Except.ok ((10 : Int) ^ id_base max_np * (this_rank * scale_factor) + i) := by
  have hp0 : 0 ≤ this_rank * scale_factor := Int.mul_nonneg hr (by omega)
  have hw : wrap32 (this_rank * scale_factor) = this_rank * scale_factor :=
    wrap32_of_range _ (by omega) hprod
  have hpow : (0 : Int) < 10 ^ id_base max_np := by positivity
  have hmul0 : 0 ≤ (10 : Int) ^ id_base max_np * (this_rank * scale_factor) :=
    Int.mul_nonneg hpow.le hp0
  have hi53 : i ≤ 2 ^ 53 := by omega
  have hz0 : 0 ≤ (10 : Int) ^ id_base max_np * (this_rank * scale_factor) + i := by omega
  -- the product as a double
  have ha : binary64 (binary64 ((10 : ℚ) ^ id_base max_np)
      * ((this_rank * scale_factor : Int) : ℚ))
      = (((10 : Int) ^ id_base max_np * (this_rank * scale_factor) : Int) : ℚ) := by
    rcases hp0.eq_or_lt with h0 | hpos
    · rw [← h0]
      simp [binary64_zero]
    · have hle : (10 : Int) ^ id_base max_np ≤ 2 ^ 53 := by
        have : (10 : Int) ^ id_base max_np * 1
            ≤ (10 : Int) ^ id_base max_np * (this_rank * scale_factor) :=
          Int.mul_le_mul_of_nonneg_left (by omega) hpow.le
        omega
      have e1 : ((10 : ℚ) ^ id_base max_np) = (((10 : Int) ^ id_base max_np : Int) : ℚ) := by
        push_cast
        rfl
      rw [e1, binary64_intCast _ hpow.le hle, ← Int.cast_mul,
        binary64_intCast _ hmul0 (by omega)]
  have hg : binary64 ((((10 : Int) ^ id_base max_np * (this_rank * scale_factor) : Int) : ℚ)
      + (i : ℚ))
      = (((10 : Int) ^ id_base max_np * (this_rank * scale_factor) + i : Int) : ℚ) := by
    rw [← Int.cast_add, binary64_intCast _ hz0 hid]
  exact generate_particle_id_eval NDEBUG i max_np scale_factor this_rank (id_base max_np)
    (binary64 ((10 : ℚ) ^ id_base max_np))
    (((10 : Int) ^ id_base max_np * (this_rank * scale_factor) : Int) : ℚ)
    (((10 : Int) ^ id_base max_np * (this_rank * scale_factor) + i : Int) : ℚ)
    ((10 : Int) ^ id_base max_np * (this_rank * scale_factor) + i)
    (by omega) hm rfl rfl (by rw [hw]; exact ha) hg
    (truncToInt_intCast _ hz0) hz0 (by omega)

/-- Two ids `B * a + i` and `B * c + j` with slots below `B` agree only if `a = c`. -/
theorem base_digits_unique (B a c i j : Int) (hi : 0 ≤ i) (hiB : i < B) (hj : 0 ≤ j)
    (hjB : j < B) (h : B * a + i = B * c + j) : a = c := by
  rcases lt_trichotomy a c with hlt | heq | hgt
  · exfalso
    have h1 : B * (a + 1) ≤ B * c := Int.mul_le_mul_of_nonneg_left (by omega) (by omega)
    have h2 : B * (a + 1) = B * a + B := by ring
    omega
  · exact heq
  · exfalso
    have h1 : B * (c + 1) ≤ B * a := Int.mul_le_mul_of_nonneg_left (by omega) (by omega)
    have h2 : B * (c + 1) = B * c + B := by ring
    omega

/-- An id above `2^53` is rounded: slot `1` of capacity `2147483647` on rank `1000000`. -/
theorem gid_example_a (NDEBUG : Bool) :
    generate_particle_id NDEBUG 1 2147483647 1 1000000 = Except.ok 10000000000000000 := by
  have hpw : binary64 (10000000000 : ℚ) = (10000000000 : ℚ) := by
    have h := binary64_eq_of_near (10000000000 : ℚ) (33) (5242880000000000) (by norm_num) (by norm_num) (by norm_num)
      (by norm_num) (by norm_num)
    rw [h]
    norm_num
  have ha : binary64 (10000000000000000 : ℚ) = (10000000000000000 : ℚ) := by
    have h := binary64_eq_of_near (10000000000000000 : ℚ) (53) (5000000000000000) (by norm_num) (by norm_num) (by norm_num)
      (by norm_num) (by norm_num)
    rw [h]
    norm_num
  have hg : binary64 (10000000000000001 : ℚ) = (10000000000000000 : ℚ) := by
    have h := binary64_eq_of_tie (10000000000000001 : ℚ) (53) (5000000000000000) (by norm_num) (by norm_num) (by norm_num)
      (by norm_num)
    rw [h]
    norm_num
  have e1 : (10 : ℚ) ^ 10 = (10000000000 : ℚ) := by norm_num
  have e2 : (10000000000 : ℚ) * ((wrap32 (1000000 * 1) : Int) : ℚ) = (10000000000000000 : ℚ) := by
    norm_num [wrap32]
  have e3 : (10000000000000000 : ℚ) + ((1 : Int) : ℚ) = (10000000000000001 : ℚ) := by norm_num
  refine generate_particle_id_eval NDEBUG 1 2147483647 1 1000000 10 (10000000000 : ℚ) (10000000000000000 : ℚ) (10000000000000000 : ℚ) 10000000000000000
    (by norm_num) (by norm_num) (id_base_eq 2147483647 10 (by norm_num) (by norm_num))
    (by rw [e1]; exact hpw) (by rw [e2]; exact ha) (by rw [e3]; exact hg) ?_
    (by norm_num) (by norm_num)
  rw [truncToInt_of_nonneg _ (by norm_num), Int.floor_eq_iff]
  constructor <;> norm_num

/-- Slot `0` of capacity `10^7` on rank `5 * 10^8` with scale `2`. -/
theorem gid_example_b0 (NDEBUG : Bool) :
    generate_particle_id NDEBUG 0 10000000 2 500000000 = Except.ok 10000000000000000 := by
  have hpw : binary64 (10000000 : ℚ) = (10000000 : ℚ) := by
    have h := binary64_eq_of_near (10000000 : ℚ) (23) (5368709120000000) (by norm_num) (by norm_num) (by norm_num)
      (by norm_num) (by norm_num)
    rw [h]
    norm_num
  have ha : binary64 (10000000000000000 : ℚ) = (10000000000000000 : ℚ) := by
    have h := binary64_eq_of_near (10000000000000000 : ℚ) (53) (5000000000000000) (by norm_num) (by norm_num) (by norm_num)
      (by norm_num) (by norm_num)
    rw [h]
    norm_num
  have hg : binary64 (10000000000000000 : ℚ) = (10000000000000000 : ℚ) := by
    have h := binary64_eq_of_near (10000000000000000 : ℚ) (53) (5000000000000000) (by norm_num) (by norm_num) (by norm_num)
      (by norm_num) (by norm_num)
    rw [h]
    norm_num
  have e1 : (10 : ℚ) ^ 7 = (10000000 : ℚ) := by norm_num
  have e2 : (10000000 : ℚ) * ((wrap32 (500000000 * 2) : Int) : ℚ) = (10000000000000000 : ℚ) := by
    norm_num [wrap32]
  have e3 : (10000000000000000 : ℚ) + ((0 : Int) : ℚ) = (10000000000000000 : ℚ) := by norm_num
  refine generate_particle_id_eval NDEBUG 0 10000000 2 500000000 7 (10000000 : ℚ) (10000000000000000 : ℚ) (10000000000000000 : ℚ) 10000000000000000
    (by norm_num) (by norm_num) (id_base_eq 10000000 7 (by norm_num) (by norm_num))
    (by rw [e1]; exact hpw) (by rw [e2]; exact ha) (by rw [e3]; exact hg) ?_
    (by norm_num) (by norm_num)
  rw [truncToInt_of_nonneg _ (by norm_num), Int.floor_eq_iff]
  constructor <;> norm_num

/-- Slot `1` of capacity `10^7` on rank `5 * 10^8` with scale `2`: rounded to the id of slot `0`. -/
theorem gid_example_b1 (NDEBUG : Bool) :
    generate_particle_id NDEBUG 1 10000000 2 500000000 = Except.ok 10000000000000000 := by
  have hpw : binary64 (10000000 : ℚ) = (10000000 : ℚ) := by
    have h := binary64_eq_of_near (10000000 : ℚ) (23) (5368709120000000) (by norm_num) (by norm_num) (by norm_num)
      (by norm_num) (by norm_num)
    rw [h]
    norm_num
  have ha : binary64 (10000000000000000 : ℚ) = (10000000000000000 : ℚ) := by
    have h := binary64_eq_of_near (10000000000000000 : ℚ) (53) (5000000000000000) (by norm_num) (by norm_num) (by norm_num)
      (by norm_num) (by norm_num)
    rw [h]
    norm_num
  have hg : binary64 (10000000000000001 : ℚ) = (10000000000000000 : ℚ) := by
    have h := binary64_eq_of_tie (10000000000000001 : ℚ) (53) (5000000000000000) (by norm_num) (by norm_num) (by norm_num)
      (by norm_num)
    rw [h]
    norm_num
  have e1 : (10 : ℚ) ^ 7 = (10000000 : ℚ) := by norm_num
  have e2 : (10000000 : ℚ) * ((wrap32 (500000000 * 2) : Int) : ℚ) = (10000000000000000 : ℚ) := by
    norm_num [wrap32]
  have e3 : (10000000000000000 : ℚ) + ((1 : Int) : ℚ) = (10000000000000001 : ℚ) := by norm_num
  refine generate_particle_id_eval NDEBUG 1 10000000 2 500000000 7 (10000000 : ℚ) (10000000000000000 : ℚ) (10000000000000000 : ℚ) 10000000000000000
    (by norm_num) (by norm_num) (id_base_eq 10000000 7 (by norm_num) (by norm_num))
    (by rw [e1]; exact hpw) (by rw [e2]; exact ha) (by rw [e3]; exact hg) ?_
    (by norm_num) (by norm_num)
  rw [truncToInt_of_nonneg _ (by norm_num), Int.floor_eq_iff]
  constructor <;> norm_num

/-- The last slot of capacity `10^7` on rank `999999999`: rounded up to `10^16`. -/
theorem gid_example_c0 (NDEBUG : Bool) :
    generate_particle_id NDEBUG 9999999 10000000 1 999999999 = Except.ok 10000000000000000 := by
  have hpw : binary64 (10000000 : ℚ) = (10000000 : ℚ) := by
    have h := binary64_eq_of_near (10000000 : ℚ) (23) (5368709120000000) (by norm_num) (by norm_num) (by norm_num)
      (by norm_num) (by norm_num)
    rw [h]
    norm_num
  have ha : binary64 (9999999990000000 : ℚ) = (9999999990000000 : ℚ) := by
    have h := binary64_eq_of_near (9999999990000000 : ℚ) (53) (4999999995000000) (by norm_num) (by norm_num) (by norm_num)
      (by norm_num) (by norm_num)
    rw [h]
    norm_num
  have hg : binary64 (9999999999999999 : ℚ) = (10000000000000000 : ℚ) := by
    have h := binary64_eq_of_tie (9999999999999999 : ℚ) (53) (4999999999999999) (by norm_num) (by norm_num) (by norm_num)
      (by norm_num)
    rw [h]
    norm_num
  have e1 : (10 : ℚ) ^ 7 = (10000000 : ℚ) := by norm_num
  have e2 : (10000000 : ℚ) * ((wrap32 (999999999 * 1) : Int) : ℚ) = (9999999990000000 : ℚ) := by
    norm_num [wrap32]
  have e3 : (9999999990000000 : ℚ) + ((9999999 : Int) : ℚ) = (9999999999999999 : ℚ) := by norm_num
  refine generate_particle_id_eval NDEBUG 9999999 10000000 1 999999999 7 (10000000 : ℚ) (9999999990000000 : ℚ) (10000000000000000 : ℚ) 10000000000000000
    (by norm_num) (by norm_num) (id_base_eq 10000000 7 (by norm_num) (by norm_num))
    (by rw [e1]; exact hpw) (by rw [e2]; exact ha) (by rw [e3]; exact hg) ?_
    (by norm_num) (by norm_num)
  rw [truncToInt_of_nonneg _ (by norm_num), Int.floor_eq_iff]
  constructor <;> norm_num

/-- Slot `0` of capacity `10^7` on rank `10^9`. -/
theorem gid_example_c1 (NDEBUG : Bool) :
    generate_particle_id NDEBUG 0 10000000 1 1000000000 = Except.ok 10000000000000000 := by
  have hpw : binary64 (10000000 : ℚ) = (10000000 : ℚ) := by
    have h := binary64_eq_of_near (10000000 : ℚ) (23) (5368709120000000) (by norm_num) (by norm_num) (by norm_num)
      (by norm_num) (by norm_num)
    rw [h]
    norm_num
  have ha : binary64 (10000000000000000 : ℚ) = (10000000000000000 : ℚ) := by
    have h := binary64_eq_of_near (10000000000000000 : ℚ) (53) (5000000000000000) (by norm_num) (by norm_num) (by norm_num)
      (by norm_num) (by norm_num)
    rw [h]
    norm_num
  have hg : binary64 (10000000000000000 : ℚ) = (10000000000000000 : ℚ) := by
    have h := binary64_eq_of_near (10000000000000000 : ℚ) (53) (5000000000000000) (by norm_num) (by norm_num) (by norm_num)
      (by norm_num) (by norm_num)
    rw [h]
    norm_num
  have e1 : (10 : ℚ) ^ 7 = (10000000 : ℚ) := by norm_num
  have e2 : (10000000 : ℚ) * ((wrap32 (1000000000 * 1) : Int) : ℚ) = (10000000000000000 : ℚ) := by
    norm_num [wrap32]
  have e3 : (10000000000000000 : ℚ) + ((0 : Int) : ℚ) = (10000000000000000 : ℚ) := by norm_num
  refine generate_particle_id_eval NDEBUG 0 10000000 1 1000000000 7 (10000000 : ℚ) (10000000000000000 : ℚ) (10000000000000000 : ℚ) 10000000000000000
    (by norm_num) (by norm_num) (id_base_eq 10000000 7 (by norm_num) (by norm_num))
    (by rw [e1]; exact hpw) (by rw [e2]; exact ha) (by rw [e3]; exact hg) ?_
    (by norm_num) (by norm_num)
  rw [truncToInt_of_nonneg _ (by norm_num), Int.floor_eq_iff]
  constructor <;> norm_num

/-- The ids of the comment in the source: `1057` and `2057` for slot `57` of capacity `128`
on the ranks `1` and `2`. -/
theorem generate_particle_id_128 (NDEBUG : Bool) (i rank : Int) (hi : 0 ≤ i) (hi' : i < 128)
    (hr : 0 ≤ rank) (hr' : rank ≤ 1000) :
    generate_particle_id NDEBUG i 128 1 rank = Except.ok (1000 * rank + i) := by
  have h := generate_particle_id_exact NDEBUG i 128 1 rank (by norm_num) (by norm_num) hr hi
    (by omega) (by rw [id_base_128]; omega)
  rw [h, id_base_128]
  congr 1
  ring

/-- C5, counterexample: for `max_np = 2147483647` (so `k = 10`), rank `1000000`, scale `1`
and slot `1` the function returns `10^16`, not `10^10 * 1000000 + 1`: the sum is rounded
to a double. -/
theorem generate_particle_id_formula_fails :
    generate_particle_id false 1 2147483647 1 1000000 = Except.ok 10000000000000000 ∧
    generate_particle_id true 1 2147483647 1 1000000 = Except.ok 10000000000000000 ∧
    id_base 2147483647 = 10 ∧
    (10 : Int) ^ id_base 2147483647 * (1000000 * 1) + 1 = 10000000000000001 := by
  have hk : id_base 2147483647 = 10 := id_base_eq 2147483647 10 (by norm_num) (by norm_num)
  refine ⟨gid_example_a false, gid_example_a true, hk, ?_⟩
  rw [hk]
  norm_num

/-- C5, amended: for every `max_np >= 1`, `rank >= 0`, `scale >= 1` and slot `i >= 0` such
that `rank * scale` is below `2^31` and `10^k * (rank * scale) + i` is at most `2^53`,
`generate_particle_id` returns `10^k * (rank * scale) + i`, where
`k = ceil(log10(max_np))` is the least natural number with `10^k >= max_np`; in
particular for `max_np = 128` and slot `57` with scale `1` it returns `1057` on rank `1`
and `2057` on rank `2`. -/
theorem generate_particle_id_formula (NDEBUG : Bool) (i max_np scale rank : Int)
    (hm : 1 ≤ max_np) (hr : 0 ≤ rank) (hs : 1 ≤ scale) (hi : 0 ≤ i)
    (hprod : rank * scale < 2 ^ 31)
    (hid : (10 : Int) ^ id_base max_np * (rank * scale) + i ≤ 2 ^ 53) :
    (∃ k : ℕ, (k : Int) = ⌈Real.logb 10 (max_np : ℝ)⌉ ∧
      max_np ≤ (10 : Int) ^ k ∧ (∀ j : ℕ, max_np ≤ (10 : Int) ^ j → k ≤ j) ∧
      generate_particle_id NDEBUG i max_np scale rank
        = Except.ok ((10 : Int) ^ k * (rank * scale) + i)) ∧
    generate_particle_id NDEBUG 57 128 1 1 = Except.ok 1057 ∧
    generate_particle_id NDEBUG 57 128 1 2 = Except.ok 2057 := by
  refine ⟨⟨id_base max_np, id_base_eq_ceil_log10 max_np hm, le_pow_id_base max_np, ?_,
    generate_particle_id_exact NDEBUG i max_np scale rank hm hs hr hi hprod hid⟩, ?_, ?_⟩
  · intro j hj
    exact (id_base_le_iff max_np j).mpr hj
  · exact generate_particle_id_128 NDEBUG 57 1 (by norm_num) (by norm_num) (by norm_num)
      (by norm_num)
  · exact generate_particle_id_128 NDEBUG 57 2 (by norm_num) (by norm_num) (by norm_num)
      (by norm_num)

/-- Witness of C5 at `max_np = 128`, rank `3`, scale `2`, slot `127`, assertions enabled. -/
theorem generate_particle_id_formula_witness :
    (1 : Int) ≤ 128 ∧ (0 : Int) ≤ 3 ∧ (1 : Int) ≤ 2 ∧ (0 : Int) ≤ 127 ∧
    (3 : Int) * 2 < 2 ^ 31 ∧
    ((∃ k : ℕ, (k : Int) = ⌈Real.logb 10 ((128 : Int) : ℝ)⌉ ∧
      (128 : Int) ≤ (10 : Int) ^ k ∧ (∀ j : ℕ, (128 : Int) ≤ (10 : Int) ^ j → k ≤ j) ∧
      generate_particle_id false 127 128 2 3 = Except.ok ((10 : Int) ^ k * (3 * 2) + 127)) ∧
    generate_particle_id false 57 128 1 1 = Except.ok 1057 ∧
    generate_particle_id false 57 128 1 2 = Except.ok 2057) :=
  ⟨by decide, by decide, by decide, by decide, by decide,
    generate_particle_id_formula false 127 128 2 3 (by decide) (by decide) (by decide)
      (by decide) (by decide) (by rw [id_base_128]; decide)⟩

/-- C6, counterexample: for `max_np = 10^7`, scale `2` and rank `5 * 10^8` the slots `0` and
`1` get the same id, `10^16`. -/
theorem generate_particle_id_slot_collision :
    (0 : Int) ≠ 1 ∧
    generate_particle_id false 0 10000000 2 500000000 = Except.ok 10000000000000000 ∧
    generate_particle_id false 1 10000000 2 500000000 = Except.ok 10000000000000000 ∧
    generate_particle_id false 0 10000000 2 500000000
      = generate_particle_id false 1 10000000 2 500000000 := by
  refine ⟨by decide, gid_example_b0 false, gid_example_b1 false, ?_⟩
  rw [gid_example_b0 false, gid_example_b1 false]

/-- C6, amended: for fixed `max_np >= 1`, `rank >= 0` and `scale >= 1` with `rank * scale`
below `2^31`, `generate_particle_id` is injective on the slots `i >= 0` whose id
`10^k * (rank * scale) + i` is at most `2^53`: the calls for two such slots `i != j` both
return, and return different ids; in particular for `max_np = 128`, rank `1` and all
`i != j` in `[0, 128)`. -/
theorem generate_particle_id_slot_injective (NDEBUG : Bool) (max_np scale rank i j : Int)
    (hm : 1 ≤ max_np) (hs : 1 ≤ scale) (hr : 0 ≤ rank) (hprod : rank * scale < 2 ^ 31)
    (hi : 0 ≤ i) (hj : 0 ≤ j)
    (hidi : (10 : Int) ^ id_base max_np * (rank * scale) + i ≤ 2 ^ 53)
    (hidj : (10 : Int) ^ id_base max_np * (rank * scale) + j ≤ 2 ^ 53) (hij : i ≠ j) :
    (∃ a b : Int, generate_particle_id NDEBUG i max_np scale rank = Except.ok a ∧
      generate_particle_id NDEBUG j max_np scale rank = Except.ok b ∧ a ≠ b) ∧
    (∀ x y : Int, 0 ≤ x → x < 128 → 0 ≤ y → y < 128 → x ≠ y →
      generate_particle_id NDEBUG x 128 1 1 ≠ generate_particle_id NDEBUG y 128 1 1) := by
  refine ⟨⟨_, _, generate_particle_id_exact NDEBUG i max_np scale rank hm hs hr hi hprod hidi,
    generate_particle_id_exact NDEBUG j max_np scale rank hm hs hr hj hprod hidj, ?_⟩, ?_⟩
  · intro h
    exact hij (by omega)
  · intro x y hx hx' hy hy' hxy h
    rw [generate_particle_id_128 NDEBUG x 1 hx hx' (by norm_num) (by norm_num),
      generate_particle_id_128 NDEBUG y 1 hy hy' (by norm_num) (by norm_num)] at h
    injection h with h
    exact hxy (by omega)

/-- Witness of C6 at `max_np = 128`, scale `1`, rank `1`, slots `56` and `57`. -/
theorem generate_particle_id_slot_injective_witness :
    (1 : Int) ≤ 128 ∧ (1 : Int) ≤ 1 ∧ (0 : Int) ≤ 1 ∧ (1 : Int) * 1 < 2 ^ 31 ∧
    (56 : Int) ≠ 57 ∧
    ((∃ a b : Int, generate_particle_id false 56 128 1 1 = Except.ok a ∧
      generate_particle_id false 57 128 1 1 = Except.ok b ∧ a ≠ b) ∧
    (∀ x y : Int, 0 ≤ x → x < 128 → 0 ≤ y → y < 128 → x ≠ y →
      generate_particle_id false x 128 1 1 ≠ generate_particle_id false y 128 1 1)) :=
  ⟨by decide, by decide, by decide, by decide, by decide,
    generate_particle_id_slot_injective false 128 1 1 56 57 (by decide) (by decide)
      (by decide) (by decide) (by decide) (by decide) (by rw [id_base_128]; decide)
      (by rw [id_base_128]; decide) (by decide)⟩

/-- C7, counterexample: for `max_np = 10^7` and scale `1`, the last slot `9999999` on rank
`999999999` and slot `0` on rank `10^9` get the same id, `10^16`. -/
theorem generate_particle_id_rank_collision :
    (999999999 : Int) ≠ 1000000000 ∧ (9999999 : Int) < 10000000 ∧
    generate_particle_id false 9999999 10000000 1 999999999 = Except.ok 10000000000000000 ∧
    generate_particle_id false 0 10000000 1 1000000000 = Except.ok 10000000000000000 ∧
    generate_particle_id false 9999999 10000000 1 999999999
      = generate_particle_id false 0 10000000 1 1000000000 := by
  refine ⟨by decide, by decide, gid_example_c0 false, gid_example_c1 false, ?_⟩
  rw [gid_example_c0 false, gid_example_c1 false]

/-- C7, amended: for every `max_np >= 1` and `scale >= 1` shared by two ranks `r1 != r2`
(both `>= 0`, with `r1 * scale` and `r2 * scale` below `2^31`) and all slots `i`, `j` in
`[0, max_np)` whose ids `10^k * (r1 * scale) + i` and `10^k * (r2 * scale) + j` are at
most `2^53`, both calls return and the id of slot `i` on rank `r1` differs from the id
of slot `j` on rank `r2`; in particular for `max_np = 128` no id of a slot in `[0, 128)`
on rank `1` equals an id of a slot in `[0, 128)` on rank `2`. -/
theorem generate_particle_id_rank_disjoint (NDEBUG : Bool) (max_np scale r1 r2 i j : Int)
    (hm : 1 ≤ max_np) (hs : 1 ≤ scale) (hr1 : 0 ≤ r1) (hr2 : 0 ≤ r2) (hr : r1 ≠ r2)
    (hp1 : r1 * scale < 2 ^ 31) (hp2 : r2 * scale < 2 ^ 31)
    (hi : 0 ≤ i) (hi' : i < max_np) (hj : 0 ≤ j) (hj' : j < max_np)
    (hidi : (10 : Int) ^ id_base max_np * (r1 * scale) + i ≤ 2 ^ 53)
    (hidj : (10 : Int) ^ id_base max_np * (r2 * scale) + j ≤ 2 ^ 53) :
    (∃ a b : Int, generate_particle_id NDEBUG i max_np scale r1 = Except.ok a ∧
      generate_particle_id NDEBUG j max_np scale r2 = Except.ok b ∧ a ≠ b) ∧
    (∀ x y : Int, 0 ≤ x → x < 128 → 0 ≤ y → y < 128 →
      generate_particle_id NDEBUG x 128 1 1 ≠ generate_particle_id NDEBUG y 128 1 2) := by
  refine ⟨⟨_, _, generate_particle_id_exact NDEBUG i max_np scale r1 hm hs hr1 hi hp1 hidi,
    generate_particle_id_exact NDEBUG j max_np scale r2 hm hs hr2 hj hp2 hidj, ?_⟩, ?_⟩
  · intro h
    have hB := le_pow_id_base max_np
    have h1 := base_digits_unique _ _ _ i j hi (by omega) hj (by omega) h
    have h2 : r1 = r2 := Int.eq_of_mul_eq_mul_right (by omega) h1
    exact hr h2
  · intro x y hx hx' hy hy' h
    rw [generate_particle_id_128 NDEBUG x 1 hx hx' (by norm_num) (by norm_num),
      generate_particle_id_128 NDEBUG y 2 hy hy' (by norm_num) (by norm_num)] at h
    injection h with h
    omega

/-- Witness of C7 at `max_np = 128`, scale `1`: slot `127` on rank `1` and slot `0` on
rank `2`. -/
theorem generate_particle_id_rank_disjoint_witness :
    (1 : Int) ≤ 128 ∧ (1 : Int) ≠ 2 ∧ (1 : Int) * 1 < 2 ^ 31 ∧ (2 : Int) * 1 < 2 ^ 31 ∧
    (127 : Int) < 128 ∧ (0 : Int) < 128 ∧
    ((∃ a b : Int, generate_particle_id false 127 128 1 1 = Except.ok a ∧
      generate_particle_id false 0 128 1 2 = Except.ok b ∧ a ≠ b) ∧
    (∀ x y : Int, 0 ≤ x → x < 128 → 0 ≤ y → y < 128 →
      generate_particle_id false x 128 1 1 ≠ generate_particle_id false y 128 1 2)) :=
  ⟨by decide, by decide, by decide, by decide, by decide, by decide,
    generate_particle_id_rank_disjoint false 128 1 1 2 127 0 (by decide) (by decide)
      (by decide) (by decide) (by decide) (by decide) (by decide) (by decide) (by decide)
      (by decide) (by decide) (by rw [id_base_128]; decide) (by rw [id_base_128]; decide)⟩

/-- C8, counterexample: the three-argument call `generate_particle_id(57, 128, 2)` returns
`57` on a process of rank `0` and `6057` on a process of rank `3`, not
`10^3 * 2 + 57 = 2057`; and with the assertions enabled the call
`generate_particle_id(57, 128, 0)` fails the assertion `scale_factor > 0`. -/
theorem generate_particle_id_3args_not_rank :
    generate_particle_id_3args false 0 57 128 2 = Except.ok 57 ∧
    generate_particle_id_3args false 3 57 128 2 = Except.ok 6057 ∧
    (10 : Int) ^ id_base 128 * 2 + 57 = 2057 ∧
    generate_particle_id_3args false 1 57 128 0 = Except.error fault_t.assertion_failed := by
  refine ⟨?_, ?_, ?_, ?_⟩
  · unfold generate_particle_id_3args
    rw [generate_particle_id_exact false 57 128 2 0 (by norm_num) (by norm_num) (by norm_num)
      (by norm_num) (by norm_num) (by rw [id_base_128]; norm_num)]
    norm_num
  · unfold generate_particle_id_3args
    rw [generate_particle_id_exact false 57 128 2 3 (by norm_num) (by norm_num) (by norm_num)
      (by norm_num) (by norm_num) (by rw [id_base_128]; norm_num), id_base_128]
    norm_num
  · rw [id_base_128]
    norm_num
  · rfl

/-- C8, amended: the id generator takes its arguments in the order (slot, capacity, scale,
rank), the scale defaulting to `1` and the rank to the rank of the calling process: for
every `max_np >= 1`, slot `i >= 0`, scale `s >= 1` and rank `r >= 0` of the calling
process with `r * s` below `2^31` and `10^k * (r * s) + i` at most `2^53`, the
three-argument call `generate_particle_id(i, max_np, s)` is the four-argument call with
scale `s` and rank `r`, returns `10^ceil(log10(max_np)) * (r * s) + i` and does not
fault. -/
theorem generate_particle_id_3args_binds_scale (NDEBUG : Bool) (r i max_np s : Int)
    (hm : 1 ≤ max_np) (hr : 0 ≤ r) (hs : 1 ≤ s) (hi : 0 ≤ i) (hprod : r * s < 2 ^ 31)
    (hid : (10 : Int) ^ id_base max_np * (r * s) + i ≤ 2 ^ 53) :
    generate_particle_id_3args NDEBUG r i max_np s = generate_particle_id NDEBUG i max_np s r ∧
    generate_particle_id_3args NDEBUG r i max_np s
      = Except.ok ((10 : Int) ^ id_base max_np * (r * s) + i) ∧
    generate_particle_id_2args NDEBUG r i max_np = generate_particle_id NDEBUG i max_np 1 r :=
  ⟨rfl, generate_particle_id_exact NDEBUG i max_np s r hm hs hr hi hprod hid, rfl⟩

/-- Witness of C8: the call `generate_particle_id(57, 128, 2)` on a process of rank `3`. -/
theorem generate_particle_id_3args_binds_scale_witness :
    (1 : Int) ≤ 128 ∧ (0 : Int) ≤ 3 ∧ (1 : Int) ≤ 2 ∧ (0 : Int) ≤ 57 ∧ (3 : Int) * 2 < 2 ^ 31 ∧
    generate_particle_id_3args false 3 57 128 2 = generate_particle_id false 57 128 2 3 ∧
    generate_particle_id_3args false 3 57 128 2
      = Except.ok ((10 : Int) ^ id_base 128 * (3 * 2) + 57) ∧
    generate_particle_id_2args false 3 57 128 = generate_particle_id false 57 128 1 3 :=
  ⟨by decide, by decide, by decide, by decide, by decide,
    generate_particle_id_3args_binds_scale false 3 57 128 2 (by decide) (by decide)
      (by decide) (by decide) (by decide) (by rw [id_base_128]; decide)⟩

/-- C15: global uniqueness of the generated ids is not a strict guarantee: there are two
calls of `generate_particle_id` with scale `1`, different ranks, different capacities
and slots below the capacities that return the same id; rank `1`, capacity `128`, slot
`57` and rank `10`, capacity `100`, slot `57` both give `1057`. -/
theorem generate_particle_id_collision (NDEBUG : Bool) :
    (generate_particle_id NDEBUG 57 128 1 1 = Except.ok 1057 ∧
      generate_particle_id NDEBUG 57 100 1 10 = Except.ok 1057) ∧
    ∃ r1 r2 max_np1 max_np2 i j g : Int, r1 ≠ r2 ∧ max_np1 ≠ max_np2 ∧
      0 ≤ i ∧ i < max_np1 ∧ 0 ≤ j ∧ j < max_np2 ∧
      generate_particle_id NDEBUG i max_np1 1 r1 = Except.ok g ∧
      generate_particle_id NDEBUG j max_np2 1 r2 = Except.ok g := by
  have h1 : generate_particle_id NDEBUG 57 128 1 1 = Except.ok 1057 :=
    generate_particle_id_128 NDEBUG 57 1 (by norm_num) (by norm_num) (by norm_num)
      (by norm_num)
  have h2 : generate_particle_id NDEBUG 57 100 1 10 = Except.ok 1057 := by
    rw [generate_particle_id_exact NDEBUG 57 100 1 10 (by norm_num) (by norm_num)
      (by norm_num) (by norm_num) (by norm_num) (by rw [id_base_100]; norm_num), id_base_100]
    norm_num
  exact ⟨⟨h1, h2⟩, 1, 10, 128, 100, 57, 57, 1057, by decide, by decide, by decide,
    by decide, by decide, by decide, h1, h2⟩

/-! ## Annotations: bounds checked accessors -/

/-- C9: for every species and every pair (particle index, slot index) with the particle
index negative or `>= np`, or the slot index negative or `>= has_annotation`,
` get_annotation` returns the not-a-number value and reads no element of the buffer; in
particular `get(-1, 0)` and `get(np, 0)` return it. -/
theorem get_annotation_out_of_range {F : Type} (NAN : F) (sp : species_t F)
    (particle_index slot_index : Int)
    (h : particle_index < 0 ∨ particle_index ≥ sp.np ∨
      slot_index < 0 ∨ slot_index ≥ sp.has_annotation) :
    get_annotation NAN sp particle_index slot_index = { value := some NAN, reads := [] } ∧
    get_annotation NAN sp (-1) 0 = { value := some NAN, reads := [] } ∧
    get_annotation NAN sp sp.np 0 = { value := some NAN, reads := [] } := by
  refine ⟨?_, ?_, ?_⟩
  · unfold get_annotation
    by_cases h1 : particle_index < 0 ∨ particle_index ≥ sp.np
    · rw [if_pos h1]
    · rw [if_neg h1, if_pos (by omega)]
  · unfold get_annotation
    rw [if_pos (Or.inl (by decide))]
  · unfold get_annotation
    rw [if_pos (Or.inr (le_refl _))]

/-- Witness of C9: slot `3` of particle `1` of the sample species, which has three slots. -/
theorem get_annotation_out_of_range_witness :
    ((1 : Int) < 0 ∨ (1 : Int) ≥ sample_species.np ∨
      (3 : Int) < 0 ∨ (3 : Int) ≥ sample_species.has_annotation) ∧
    get_annotation none sample_species 1 3 = { value := some none, reads := [] } ∧
    get_annotation none sample_species (-1) 0 = { value := some none, reads := [] } ∧
    get_annotation none sample_species sample_species.np 0
      = { value := some none, reads := [] } :=
  ⟨by decide, get_annotation_out_of_range none sample_species 1 3 (by decide)⟩

/-- C10: for every species and every pair (particle index, slot index) with the particle
index outside `[0, np)` or the slot index outside `[0, has_annotation)`, both
` set_annotation` and ` increment_annotation` return with the species unchanged: the
whole annotation buffer and every other field. -/
theorem set_increment_annotation_out_of_range {F : Type} (fadd : F → F → F)
    (sp : species_t F) (particle_index slot_index : Int) (v a : F)
    (h : particle_index < 0 ∨ particle_index ≥ sp.np ∨
      slot_index < 0 ∨ slot_index ≥ sp.has_annotation) :
    set_annotation sp particle_index slot_index v = some sp ∧
    increment_annotation fadd sp particle_index slot_index a = some sp := by
  constructor
  · unfold set_annotation
    by_cases h1 : particle_index < 0 ∨ particle_index ≥ sp.np
    · rw [if_pos h1]
    · rw [if_neg h1, if_pos (by omega)]
  · unfold increment_annotation
    by_cases h1 : particle_index < 0 ∨ particle_index ≥ sp.np
    · rw [if_pos h1]
    · rw [if_neg h1, if_pos (by omega)]

/-- Witness of C10: particle `2` of the sample species, which has two live particles. -/
theorem set_increment_annotation_out_of_range_witness :
    ((2 : Int) < 0 ∨ (2 : Int) ≥ sample_species.np ∨
      (0 : Int) < 0 ∨ (0 : Int) ≥ sample_species.has_annotation) ∧
    set_annotation sample_species 2 0 (some 5) = some sample_species ∧
    increment_annotation (fun x y => (· + ·) <$> x <*> y) sample_species 2 0 (some 5)
      = some sample_species :=
  ⟨by decide,
    set_increment_annotation_out_of_range _ sample_species 2 0 (some 5) (some 5) (by decide)⟩

/-! ## Annotations: allocation -/

/-- The size requested when the product `max_np * slot_count` fits an `int`. -/
theorem allocate_size_of_range (max_np slot_count : Int) (h0 : 0 ≤ max_np * slot_count)
    (h1 : max_np * slot_count < 2 ^ 31) :
    ((wrap32 (max_np * slot_count) % 2 ^ 64).toNat * sizeof_float) % 2 ^ 64
      = (max_np * slot_count).toNat * sizeof_float := by
  rw [wrap32_of_range _ (by omega) h1]
  unfold sizeof_float
  omega

/-- C11, counterexample: for a species of capacity `max_np = 1048576` the call
`allocate_annotation_buffer(2048)` requests `2^64 - 2^33` bytes, not the
`1048576 * 2048 * 4 = 2^33` bytes of `max_np * slot_count` scalars: the `int` product
`max_np * has_annotation` wraps. -/
theorem allocate_annotation_buffer_overflow :
    (allocate_annotation_buffer (fun _ _ => none)
      { sample_species with max_np := 1048576 } 2048).requests
      = [(18446744065119617024, 128)] ∧
    (18446744065119617024 : Nat) ≠ 1048576 * 2048 * sizeof_float := by
  constructor
  · rfl
  · decide

/-- C11, amended: ` allocate_annotation_buffer(slot_count)` returns for every `slot_count`;
for `slot_count <= 0` it sets `has_annotation` to `0`, requests no buffer and leaves
every other field as it was; for `slot_count > 0`, with `max_np >= 0` and
`max_np * slot_count` below `2^31`, it sets `has_annotation` to `slot_count` and requests
one buffer, of `max_np * slot_count * sizeof(float)` bytes (the room of exactly
`max_np * slot_count` scalars) aligned to `128`; the block acquired becomes the
annotation buffer, and a failed acquisition is fatal. -/
theorem allocate_annotation_buffer_spec {F : Type}
    (MALLOC_ALIGNED : Nat → Nat → Option (List F)) (sp : species_t F) (slot_count : Int) :
    (slot_count ≤ 0 →
      allocate_annotation_buffer MALLOC_ALIGNED sp slot_count
        = { sp := { sp with has_annotation := 0 }, requests := [], fatal := false }) ∧
    (slot_count > 0 → 0 ≤ sp.max_np → sp.max_np * slot_count < 2 ^ 31 →
      (allocate_annotation_buffer MALLOC_ALIGNED sp slot_count).sp.has_annotation
        = slot_count ∧
      (allocate_annotation_buffer MALLOC_ALIGNED sp slot_count).requests
        = [((sp.max_np * slot_count).toNat * sizeof_float, 128)] ∧
      (∀ buf, MALLOC_ALIGNED ((sp.max_np * slot_count).toNat * sizeof_float) 128 = some buf →
        allocate_annotation_buffer MALLOC_ALIGNED sp slot_count
          = { sp := { sp with has_annotation := slot_count, p_annotation := buf },
              requests := [((sp.max_np * slot_count).toNat * sizeof_float, 128)],
              fatal := false }) ∧
      (MALLOC_ALIGNED ((sp.max_np * slot_count).toNat * sizeof_float) 128 = none →
        (allocate_annotation_buffer MALLOC_ALIGNED sp slot_count).fatal = true)) := by
  constructor
  · intro h
    unfold allocate_annotation_buffer
    rw [if_pos h]
  · intro h hm hprod
    have hsize := allocate_size_of_range sp.max_np slot_count
      (Int.mul_nonneg hm (by omega)) hprod
    unfold allocate_annotation_buffer
    rw [if_neg (by omega)]
    simp only [hsize]
    cases hM : MALLOC_ALIGNED ((sp.max_np * slot_count).toNat * sizeof_float) 128 with
    | none => simp
    | some buf => simp

/-- Witness of C11 on the sample species (capacity `4`): the counts `-1` and `2`, with an
allocator that returns zeroed blocks of `size / 4` scalars. -/
theorem allocate_annotation_buffer_spec_witness :
    allocate_annotation_buffer (fun size _ => some (List.replicate (size / 4) (some 0)))
        sample_species (-1)
      = { sp := { sample_species with has_annotation := 0 }, requests := [],
          fatal := false } ∧
    ( allocate_annotation_buffer (fun size _ => some (List.replicate (size / 4) (some 0)))
        sample_species 2).sp.has_annotation = 2 ∧
    ( allocate_annotation_buffer (fun size _ => some (List.replicate (size / 4) (some 0)))
        sample_species 2).requests = [(32, 128)] :=
  ⟨(allocate_annotation_buffer_spec _ sample_species (-1)).1 (by decide),
    ((allocate_annotation_buffer_spec _ sample_species 2).2 (by decide) (by decide)
      (by decide)).1,
    ((allocate_annotation_buffer_spec _ sample_species 2).2 (by decide) (by decide)
      (by decide)).2.1⟩

/-! ## Particle records: pending locator and injector layout -/

/-- C12: for every voxel in `[0, 2^28)` and face in `[0, 6)`, the pending locator
`8*voxel + face` lies in the range of the `int32_t` field `particle_t::i`, and decoding
it by quotient and remainder by `8` gives back the voxel and the face. -/
theorem locator_round_trip (voxel face : Int) (hv0 : 0 ≤ voxel) (hv : voxel < 2 ^ 28)
    (hf0 : 0 ≤ face) (hf : face < 6) :
    -2 ^ 31 ≤ locator_encode voxel face ∧ locator_encode voxel face < 2 ^ 31 ∧
    locator_decode (locator_encode voxel face) = (voxel, face) := by
  unfold locator_encode locator_decode
  have hnn : 0 ≤ 8 * voxel + face := by omega
  rw [Int.tdiv_eq_ediv hnn (by decide), Int.tmod_eq_emod hnn (by decide)]
  refine ⟨by omega, by omega, ?_⟩
  have h1 : (8 * voxel + face) / 8 = voxel := by omega
  have h2 : (8 * voxel + face) % 8 = face := by omega
  rw [h1, h2]

/-- Witness of C12 at the largest voxel `2^28 - 1` and the largest face `5`. -/
theorem locator_round_trip_witness :
    (0 : Int) ≤ 268435455 ∧ (268435455 : Int) < 2 ^ 28 ∧ (0 : Int) ≤ 5 ∧ (5 : Int) < 6 ∧
    -2 ^ 31 ≤ locator_encode 268435455 5 ∧ locator_encode 268435455 5 < 2 ^ 31 ∧
    locator_decode (locator_encode 268435455 5) = (268435455, 5) :=
  ⟨by decide, by decide, by decide, by decide,
    locator_round_trip 268435455 5 (by decide) (by decide) (by decide) (by decide)⟩

/-- The sample representation is four bytes wide. -/
theorem sample_repr_four_bytes_wide : sample_repr.four_bytes_wide := by
  refine ⟨fun x => ⟨rfl, rfl⟩, fun n h0 h1 => ⟨rfl, ?_⟩⟩
  simp only [sample_repr, List.getD_cons_zero, List.getD_cons_succ, Fin.ofNat, Fin.val_mk]
  norm_num
  split_ifs with h <;> omega

theorem field_bytes_zero (c rest : List (Fin 256)) (hc : c.length = 4) :
    field_bytes (c ++ rest) 0 = c := by
  unfold field_bytes
  rw [List.drop_zero, List.take_left' hc]

theorem field_bytes_last (c : List (Fin 256)) (hc : c.length = 4) :
    field_bytes c 0 = c := by
  unfold field_bytes
  rw [List.drop_zero, ← hc, List.take_length]

/-- A field behind a four byte field sits four bytes earlier in the rest of the image. -/
theorem field_bytes_skip (c rest : List (Fin 256)) (off : Nat) (hc : c.length = 4)
    (ho : 4 ≤ off) : field_bytes (c ++ rest) off = field_bytes rest (off - 4) := by
  obtain ⟨k, rfl⟩ : ∃ k, off = k + 4 := ⟨off - 4, by omega⟩
  unfold field_bytes
  rw [Nat.add_sub_cancel, Nat.add_comm, ← List.drop_drop, List.drop_left' hc]

/-- C13: with every field four bytes wide and global ids disabled, `particle_t` takes `32`
bytes, `particle_mover_t` `16` and `particle_injector_t` `48`, and an injector read
through its own fields from the bytes of a particle followed by the bytes of a mover
has `dx, dy, dz, i, ux, uy, uz, w` equal to the fields of the particle, `dispx, dispy,
dispz` equal to the fields of the mover, and `sp_id` equal to the particle index of the
mover.  The integer fields hold values of `int32_t`. -/
theorem injector_layout {F : Type} (R : repr_t F) (hR : R.four_bytes_wide)
    (p : particle_t F) (m : particle_mover_t F) (pi : particle_injector_t F)
    (hp : -2 ^ 31 ≤ p.i ∧ p.i < 2 ^ 31) (hm : -2 ^ 31 ≤ m.i ∧ m.i < 2 ^ 31)
    (hpi : -2 ^ 31 ≤ pi.i ∧ pi.i < 2 ^ 31) (hps : -2 ^ 31 ≤ pi.sp_id ∧ pi.sp_id < 2 ^ 31) :
    (p.bytes R).length = 32 ∧ (m.bytes R).length = 16 ∧ (pi.bytes R).length = 48 ∧
    particle_injector_t.read R (p.bytes R ++ m.bytes R)
      = { dx := p.dx, dy := p.dy, dz := p.dz, i := p.i,
          ux := p.ux, uy := p.uy, uz := p.uz, w := p.w,
          dispx := m.dispx, dispy := m.dispy, dispz := m.dispz, sp_id := m.i } := by
  obtain ⟨hf, hi⟩ := hR
  have lf : ∀ x : F, (R.float_bytes x).length = 4 := fun x => (hf x).1
  have vf : ∀ x : F, R.float_value (R.float_bytes x) = x := fun x => (hf x).2
  have lpi := (hi p.i hp.1 hp.2).1
  have vpi := (hi p.i hp.1 hp.2).2
  have lmi := (hi m.i hm.1 hm.2).1
  have vmi := (hi m.i hm.1 hm.2).2
  have l1 := (hi pi.i hpi.1 hpi.2).1
  have l2 := (hi pi.sp_id hps.1 hps.2).1
  refine ⟨?_, ?_, ?_, ?_⟩
  · simp only [particle_t.bytes, List.length_append, lf, lpi]
  · simp only [particle_mover_t.bytes, List.length_append, lf, lmi]
  · simp only [particle_injector_t.bytes, List.length_append, lf, l1, l2]
  · simp only [particle_injector_t.read, particle_t.bytes, particle_mover_t.bytes,
      List.append_assoc]
    have z := fun (x : F) (rest : List (Fin 256)) => field_bytes_zero _ rest (lf x)
    have k := fun (x : F) (rest : List (Fin 256)) (off : Nat) (ho : 4 ≤ off) =>
      field_bytes_skip _ rest off (lf x) ho
    have ki := fun (rest : List (Fin 256)) (off : Nat) (ho : 4 ≤ off) =>
      field_bytes_skip _ rest off lpi ho
    have zi := fun (rest : List (Fin 256)) => field_bytes_zero _ rest lpi
    have zl := field_bytes_last _ lmi
    simp [z, k, ki, zi, zl, vf, vpi, vmi]

/-- Witness of C13 on the sample particle and mover, in the sample representation. -/
theorem injector_layout_witness :
    sample_repr.four_bytes_wide ∧
    (-2 ^ 31 ≤ sample_particle.i ∧ sample_particle.i < 2 ^ 31) ∧
    (-2 ^ 31 ≤ sample_mover.i ∧ sample_mover.i < 2 ^ 31) ∧
    (sample_particle.bytes sample_repr).length = 32 ∧
    (sample_mover.bytes sample_repr).length = 16 ∧
    (sample_injector.bytes sample_repr).length = 48 ∧
    particle_injector_t.read sample_repr
        (sample_particle.bytes sample_repr ++ sample_mover.bytes sample_repr)
      = { dx := 1, dy := 2, dz := 3, i := 42, ux := 4, uy := 5, uz := 6, w := 7,
          dispx := 8, dispy := 9, dispz := 10, sp_id := -9 } :=
  ⟨sample_repr_four_bytes_wide, by decide, by decide,
    injector_layout sample_repr sample_repr_four_bytes_wide sample_particle sample_mover
      sample_injector (by decide) (by decide) (by decide) (by decide)⟩

/-! ## Alignment: `PAD` -/

/-- For a power of two `a`, the padding is `a` minus the remainder of `s` by `a`. -/
theorem PAD_pow_two (s k : Nat) : PAD s (2 ^ k) = 2 ^ k - s % 2 ^ k := by
  unfold PAD
  rw [Nat.and_pow_two_sub_one_eq_mod]

/-- C16: for every `s >= 0` and every power of two `a = 2^k >= 1`, `s + PAD(s, a)` is a
multiple of `a`, `1 <= PAD(s, a) <= a`, and `PAD(s, a) = a` (not `0`) exactly when `s` is
already a multiple of `a`. -/
theorem PAD_spec (s k : Nat) :
    (s + PAD s (2 ^ k)) % 2 ^ k = 0 ∧
    1 ≤ PAD s (2 ^ k) ∧ PAD s (2 ^ k) ≤ 2 ^ k ∧
    (PAD s (2 ^ k) = 2 ^ k ↔ s % 2 ^ k = 0) := by
  rw [PAD_pow_two]
  have ha : 0 < 2 ^ k := by positivity
  have hlt : s % 2 ^ k < 2 ^ k := Nat.mod_lt s ha
  refine ⟨?_, by omega, by omega, by omega⟩
  have hs := Nat.div_add_mod s (2 ^ k)
  have : s + (2 ^ k - s % 2 ^ k) = 2 ^ k * (s / 2 ^ k + 1) := by
    rw [Nat.mul_add, Nat.mul_one]
    omega
  rw [this, Nat.mul_mod_right]

/-! ## Annotations: the disabled feature -/

/-- C17: after ` allocate_annotation_buffer` is called with a non-positive `slot_count`,
for every particle index and slot index ` get_annotation` returns the not-a-number value
without reading the buffer, and ` set_annotation` and ` increment_annotation` return with
the species unchanged. -/
theorem annotation_disabled {F : Type} (NAN : F) (fadd : F → F → F) (MALLOC_ALIGNED : Nat → Nat → Option (List F))
    (sp : species_t F) (slot_count : Int) (hc : slot_count ≤ 0)
    (particle_index slot_index : Int) (v a : F) :
    get_annotation NAN (allocate_annotation_buffer MALLOC_ALIGNED sp slot_count).sp
        particle_index slot_index = { value := some NAN, reads := [] } ∧
    set_annotation (allocate_annotation_buffer MALLOC_ALIGNED sp slot_count).sp
        particle_index slot_index v
      = some (allocate_annotation_buffer MALLOC_ALIGNED sp slot_count).sp ∧
    increment_annotation fadd (allocate_annotation_buffer MALLOC_ALIGNED sp slot_count).sp
        particle_index slot_index a
      = some (allocate_annotation_buffer MALLOC_ALIGNED sp slot_count).sp := by
  have hsp : (allocate_annotation_buffer MALLOC_ALIGNED sp slot_count).sp
      = { sp with has_annotation := 0 } := by
    unfold allocate_annotation_buffer
    rw [if_pos hc]
  rw [hsp]
  have hslot : slot_index < 0 ∨ slot_index ≥ 0 := by omega
  refine ⟨?_, ?_, ?_⟩
  · unfold get_annotation
    by_cases h1 : particle_index < 0 ∨ particle_index ≥ sp.np
    · rw [if_pos h1]
    · rw [if_neg h1, if_pos hslot]
  · unfold set_annotation
    by_cases h1 : particle_index < 0 ∨ particle_index ≥ sp.np
    · rw [if_pos h1]
    · rw [if_neg h1, if_pos hslot]
  · unfold increment_annotation
    by_cases h1 : particle_index < 0 ∨ particle_index ≥ sp.np
    · rw [if_pos h1]
    · rw [if_neg h1, if_pos hslot]

/-- Witness of C17: the sample species after `allocate_annotation_buffer(0)`, accessed at
particle `1`, slot `0`, which is in range before the call. -/
theorem annotation_disabled_witness :
    (0 : Int) ≤ 0 ∧
    get_annotation none (allocate_annotation_buffer (fun _ _ => none) sample_species 0).sp 1 0
      = { value := some none, reads := [] } ∧
    set_annotation (allocate_annotation_buffer (fun _ _ => none) sample_species 0).sp 1 0
        (some 5)
      = some (allocate_annotation_buffer (fun _ _ => none) sample_species 0).sp ∧
    increment_annotation (fun x y => (· + ·) <$> x <*> y)
        (allocate_annotation_buffer (fun _ _ => none) sample_species 0).sp 1 0 (some 5)
      = some (allocate_annotation_buffer (fun _ _ => none) sample_species 0).sp :=
  ⟨by decide,
    annotation_disabled none _ (fun _ _ => none) sample_species 0 (by decide) 1 0
      (some 5) (some 5)⟩

/-! ## Annotations: accesses that pass the validation -/

/-- The flat index of an in-range pair lies in `[0, n * S)` when the particle index is
below `n`. -/
theorem flat_index_bounds (n S pi si : Int) (hpi : 0 ≤ pi) (hpin : pi < n) (hsi : 0 ≤ si)
    (hsiS : si < S) : 0 ≤ pi * S + si ∧ pi * S + si < n * S := by
  have hS : 0 < S := by omega
  constructor
  · have := Int.mul_nonneg hpi hS.le
    omega
  · have h1 : (pi + 1) * S ≤ n * S := Int.mul_le_mul_of_nonneg_right (by omega) hS.le
    have h2 : (pi + 1) * S = pi * S + S := by ring
    omega

/-- The flat index `pi * S + si` is injective on pairs with slot index in `[0, S)`. -/
theorem flat_index_injective (S p s p' s' : Int) (hs : 0 ≤ s) (hsS : s < S) (hs' : 0 ≤ s')
    (hsS' : s' < S) : p * S + s = p' * S + s' ↔ p = p' ∧ s = s' := by
  constructor
  · intro h
    have h1 : S * p + s = S * p' + s' := by linarith
    have h2 := base_digits_unique S p p' s s' hs hsS hs' hsS' h1
    subst h2
    exact ⟨rfl, by omega⟩
  · rintro ⟨rfl, rfl⟩
    rfl

theorem buffer_store_in_range {F : Type} (buf : List F) (k : Int) (v : F) (h0 : 0 ≤ k)
    (h1 : k < buf.length) : buffer_store buf k v = some (buf.set k.toNat v) := by
  unfold buffer_store
  rw [if_pos ⟨h0, h1⟩]

theorem buffer_load_in_range {F : Type} (buf : List F) (k : Int) (h0 : 0 ≤ k)
    (h1 : k < buf.length) : ∃ x, buffer_load buf k = some x := by
  unfold buffer_load
  rw [if_pos h0, List.get?_eq_getElem?]
  have hk : k.toNat < buf.length := by omega
  exact ⟨buf[k.toNat], List.getElem?_eq_getElem hk⟩

/-- A load after a store inside the buffer: the stored value at the same index, the old
element at any other index. -/
theorem buffer_load_set {F : Type} (buf : List F) (k k' : Int) (v : F) (h0 : 0 ≤ k)
    (h1 : k < buf.length) (h0' : 0 ≤ k') :
    buffer_load (buf.set k.toNat v) k' = if k' = k then some v else buffer_load buf k' := by
  unfold buffer_load
  rw [if_pos h0', if_pos h0', List.get?_eq_getElem?, List.get?_eq_getElem?]
  by_cases hk : k' = k
  · subst hk
    rw [if_pos rfl, List.getElem?_set_self (by omega)]
  · rw [if_neg hk, List.getElem?_set_ne (by omega)]

/-- The value of ` get_annotation` on a pair that passes the validation. -/
theorem get_annotation_in_range {F : Type} (NAN : F) (sp : species_t F)
    (particle_index slot_index : Int) (hp : 0 ≤ particle_index ∧ particle_index < sp.np)
    (hs : 0 ≤ slot_index ∧ slot_index < sp.has_annotation) :
    get_annotation NAN sp particle_index slot_index
      = { value := buffer_load sp.p_annotation (particle_index * sp.has_annotation + slot_index),
          reads := [particle_index * sp.has_annotation + slot_index] } := by
  unfold get_annotation
  rw [if_neg (by omega), if_neg (by omega)]

/-- The value of ` set_annotation` on a pair that passes the validation. -/
theorem set_annotation_in_range {F : Type} (sp : species_t F)
    (particle_index slot_index : Int) (v : F)
    (hp : 0 ≤ particle_index ∧ particle_index < sp.np)
    (hs : 0 ≤ slot_index ∧ slot_index < sp.has_annotation) :
    set_annotation sp particle_index slot_index v
      = (buffer_store sp.p_annotation (particle_index * sp.has_annotation + slot_index) v).map
          (fun buf => { sp with p_annotation := buf }) := by
  unfold set_annotation
  rw [if_neg (by omega), if_neg (by omega)]

/-- C18: ` set_annotation` updates exactly the addressed slot: in a species with slot count
`S > 0` whose buffer holds the `np * S` elements of the live particles, for all in-range
pairs `(p, s)` and `(p', s')` the call `set_annotation(p, s, v)` returns, and afterwards
` get_annotation(p', s')` gives `v` if `(p', s') = (p, s)` and its previous value
otherwise; the flat index `p * S + s` is injective on in-range pairs. -/
theorem set_annotation_updates_slot {F : Type} (NAN : F) (sp : species_t F)
    (p s p' s' : Int) (v : F)
    (_hS : 0 < sp.has_annotation)
    (hp : 0 ≤ p ∧ p < sp.np) (hs : 0 ≤ s ∧ s < sp.has_annotation)
    (hp' : 0 ≤ p' ∧ p' < sp.np) (hs' : 0 ≤ s' ∧ s' < sp.has_annotation)
    (hbuf : sp.np * sp.has_annotation ≤ sp.p_annotation.length) :
    (p * sp.has_annotation + s = p' * sp.has_annotation + s' ↔ p = p' ∧ s = s') ∧
    ∃ sp1 : species_t F, set_annotation sp p s v = some sp1 ∧
      ( get_annotation NAN sp1 p' s').value
        = if p' = p ∧ s' = s then some v else ( get_annotation NAN sp p' s').value := by
  have hinj := flat_index_injective sp.has_annotation p s p' s' hs.1 hs.2 hs'.1 hs'.2
  have hk := flat_index_bounds sp.np sp.has_annotation p s hp.1 hp.2 hs.1 hs.2
  have hk' := flat_index_bounds sp.np sp.has_annotation p' s' hp'.1 hp'.2 hs'.1 hs'.2
  let buf1 : List F := sp.p_annotation.set (p * sp.has_annotation + s).toNat v
  let sp1 : species_t F := { sp with p_annotation := buf1 }
  refine ⟨hinj, sp1, ?_, ?_⟩
  · rw [set_annotation_in_range sp p s v hp hs,
      buffer_store_in_range _ _ _ hk.1 (by omega)]
    rfl
  · rw [get_annotation_in_range NAN sp1 p' s' hp' hs',
      get_annotation_in_range NAN sp p' s' hp' hs']
    show buffer_load buf1 (p' * sp.has_annotation + s') = _
    rw [buffer_load_set _ _ _ _ hk.1 (by omega) hk'.1]
    by_cases hsame : p' = p ∧ s' = s
    · obtain ⟨rfl, rfl⟩ := hsame
      simp
    · have hne : ¬ (p' * sp.has_annotation + s' = p * sp.has_annotation + s) := by
        intro h
        have := hinj.mp h.symm
        exact hsame ⟨this.1.symm, this.2.symm⟩
      rw [if_neg hne, if_neg hsame]

/-- Witness of C18 on the sample species: a write to slot `2` of particle `0`, read back
at slot `1` of particle `1`. -/
theorem set_annotation_updates_slot_witness :
    0 < sample_species.has_annotation ∧
    ((0 : Int) ≤ 0 ∧ (0 : Int) < sample_species.np) ∧
    ((0 : Int) ≤ 2 ∧ (2 : Int) < sample_species.has_annotation) ∧
    ((0 : Int) ≤ 1 ∧ (1 : Int) < sample_species.np) ∧
    ((0 : Int) ≤ 1 ∧ (1 : Int) < sample_species.has_annotation) ∧
    sample_species.np * sample_species.has_annotation ≤ sample_species.p_annotation.length ∧
    ((0 : Int) * sample_species.has_annotation + 2 = 1 * sample_species.has_annotation + 1
      ↔ (0 : Int) = 1 ∧ (2 : Int) = 1) ∧
    ∃ sp1 : species_t (Option Int), set_annotation sample_species 0 2 (some 99) = some sp1 ∧
      ( get_annotation none sp1 1 1).value
        = if (1 : Int) = 0 ∧ (1 : Int) = 2 then some (some 99)
          else ( get_annotation none sample_species 1 1).value :=
  ⟨by decide, by decide, by decide, by decide, by decide, by decide,
    set_annotation_updates_slot none sample_species 0 2 1 1 (some 99) (by decide)
      (by decide) (by decide) (by decide) (by decide) (by decide)⟩

/-- C19: every annotation access that passes the validation is inside the allocated
buffer: if `0 <= np <= max_np` and the buffer has the `max_np * S` elements of an
allocation with slot count `S = has_annotation > 0`, then the index `pi * S + si` of an
accepted pair lies in `[0, max_np * S)`; the only element ` get_annotation` reads has
such an index, and none of ` get_annotation`, ` set_annotation` and
` increment_annotation` accesses memory outside the buffer. -/
theorem annotation_access_in_buffer {F : Type} (NAN : F) (fadd : F → F → F)
    (sp : species_t F) (particle_index slot_index : Int) (v a : F)
    (_hnp : 0 ≤ sp.np) (hmax : sp.np ≤ sp.max_np) (_hS : 0 < sp.has_annotation)
    (hlen : (sp.p_annotation.length : Int) = sp.max_np * sp.has_annotation) :
    (0 ≤ particle_index → particle_index < sp.np →
      0 ≤ slot_index → slot_index < sp.has_annotation →
      0 ≤ particle_index * sp.has_annotation + slot_index ∧
      particle_index * sp.has_annotation + slot_index < sp.max_np * sp.has_annotation) ∧
    (∀ k ∈ ( get_annotation NAN sp particle_index slot_index).reads,
      k = particle_index * sp.has_annotation + slot_index ∧
      0 ≤ k ∧ k < sp.max_np * sp.has_annotation) ∧
    ( get_annotation NAN sp particle_index slot_index).value ≠ none ∧
    set_annotation sp particle_index slot_index v ≠ none ∧
    increment_annotation fadd sp particle_index slot_index a ≠ none := by
  have hidx : 0 ≤ particle_index → particle_index < sp.np →
      0 ≤ slot_index → slot_index < sp.has_annotation →
      0 ≤ particle_index * sp.has_annotation + slot_index ∧
      particle_index * sp.has_annotation + slot_index < sp.max_np * sp.has_annotation :=
    fun h1 h2 h3 h4 =>
      flat_index_bounds sp.max_np sp.has_annotation particle_index slot_index h1
        (by omega) h3 h4
  refine ⟨hidx, ?_, ?_, ?_, ?_⟩
  · unfold get_annotation
    by_cases h1 : particle_index < 0 ∨ particle_index ≥ sp.np
    · rw [if_pos h1]; simp
    · by_cases h2 : slot_index < 0 ∨ slot_index ≥ sp.has_annotation
      · rw [if_neg h1, if_pos h2]; simp
      · rw [if_neg h1, if_neg h2]
        intro k hk
        simp only [List.mem_singleton] at hk
        subst hk
        exact ⟨rfl, hidx (by omega) (by omega) (by omega) (by omega)⟩
  · unfold get_annotation
    by_cases h1 : particle_index < 0 ∨ particle_index ≥ sp.np
    · rw [if_pos h1]; simp
    · by_cases h2 : slot_index < 0 ∨ slot_index ≥ sp.has_annotation
      · rw [if_neg h1, if_pos h2]; simp
      · rw [if_neg h1, if_neg h2]
        have hb := hidx (by omega) (by omega) (by omega) (by omega)
        obtain ⟨x, hx⟩ := buffer_load_in_range sp.p_annotation _ hb.1 (by omega)
        simp only [hx]
        simp
  · unfold set_annotation
    by_cases h1 : particle_index < 0 ∨ particle_index ≥ sp.np
    · rw [if_pos h1]; simp
    · by_cases h2 : slot_index < 0 ∨ slot_index ≥ sp.has_annotation
      · rw [if_neg h1, if_pos h2]; simp
      · rw [if_neg h1, if_neg h2]
        have hb := hidx (by omega) (by omega) (by omega) (by omega)
        simp only [buffer_store_in_range sp.p_annotation _ v hb.1 (by omega)]
        simp
  · unfold increment_annotation
    by_cases h1 : particle_index < 0 ∨ particle_index ≥ sp.np
    · rw [if_pos h1]; simp
    · by_cases h2 : slot_index < 0 ∨ slot_index ≥ sp.has_annotation
      · rw [if_neg h1, if_pos h2]; simp
      · rw [if_neg h1, if_neg h2]
        have hb := hidx (by omega) (by omega) (by omega) (by omega)
        obtain ⟨x, hx⟩ := buffer_load_in_range sp.p_annotation _ hb.1 (by omega)
        simp only [hx, Option.some_bind,
          buffer_store_in_range sp.p_annotation _ (fadd x a) hb.1 (by omega)]
        simp

/-- Witness of C19 on the sample species (two live particles of four, three slots, twelve
elements): the last accepted pair, particle `1` and slot `2`. -/
theorem annotation_access_in_buffer_witness :
    (0 : Int) ≤ sample_species.np ∧ sample_species.np ≤ sample_species.max_np ∧
    0 < sample_species.has_annotation ∧
    (sample_species.p_annotation.length : Int)
      = sample_species.max_np * sample_species.has_annotation ∧
    ((0 : Int) ≤ 1 → (1 : Int) < sample_species.np →
      (0 : Int) ≤ 2 → (2 : Int) < sample_species.has_annotation →
      0 ≤ (1 : Int) * sample_species.has_annotation + 2 ∧
      (1 : Int) * sample_species.has_annotation + 2
        < sample_species.max_np * sample_species.has_annotation) ∧
    (∀ k ∈ ( get_annotation none sample_species 1 2).reads,
      k = (1 : Int) * sample_species.has_annotation + 2 ∧
      0 ≤ k ∧ k < sample_species.max_np * sample_species.has_annotation) ∧
    ( get_annotation none sample_species 1 2).value ≠ none ∧
    set_annotation sample_species 1 2 (some 5) ≠ none ∧
    increment_annotation (fun x y => (· + ·) <$> x <*> y) sample_species 1 2 (some 5)
      ≠ none :=
  ⟨by decide, by decide, by decide, by decide,
    annotation_access_in_buffer none _ sample_species 1 2 (some 5) (some 5) (by decide)
      (by decide) (by decide) (by decide)⟩

/-! ## Array indexing: `INDEX_FORTRAN_3` and `INDEX_C_3` -/

/-- In a box of fewer than `2^31` cells no `int` of `INDEX_FORTRAN_3` wraps, and the
index of a triple of the box is the exact value of the expression. -/
theorem INDEX_FORTRAN_3_exact (x y z xl xh yl yh zl zh : Int)
    (hcells : (xh - xl + 1) * (yh - yl + 1) * (zh - zl + 1) < 2 ^ 31)
    (h1 : xl ≤ x) (h2 : x ≤ xh) (h3 : yl ≤ y) (h4 : y ≤ yh) (h5 : zl ≤ z) (h6 : z ≤ zh) :
    INDEX_FORTRAN_3 x y z xl xh yl yh zl zh
      = x - xl + (xh - xl + 1) * (y - yl + (yh - yl + 1) * (z - zl)) := by
  have hnx : 0 < xh - xl + 1 := by omega
  have hny : 0 < yh - yl + 1 := by omega
  have hnz : 0 < zh - zl + 1 := by omega
  have hyz : 0 < (yh - yl + 1) * (zh - zl + 1) := Int.mul_pos hny hnz
  -- the extents and the partial indices are bounded by the number of cells
  have b1 : (yh - yl + 1) * (zh - zl + 1) ≤ (xh - xl + 1) * (yh - yl + 1) * (zh - zl + 1) := by
    have := Int.mul_le_mul_of_nonneg_right (by omega : 1 ≤ xh - xl + 1) hyz.le
    linarith
  have b2 : yh - yl + 1 ≤ (yh - yl + 1) * (zh - zl + 1) := by
    have := Int.mul_le_mul_of_nonneg_left (by omega : 1 ≤ zh - zl + 1) hny.le
    linarith
  have b0 : zh - zl + 1 ≤ (yh - yl + 1) * (zh - zl + 1) := by
    have := Int.mul_le_mul_of_nonneg_right (by omega : 1 ≤ yh - yl + 1) hnz.le
    linarith
  have b3 : xh - xl + 1 ≤ (xh - xl + 1) * (yh - yl + 1) * (zh - zl + 1) := by
    have := Int.mul_le_mul_of_nonneg_left (by omega : 1 ≤ (yh - yl + 1) * (zh - zl + 1)) hnx.le
    linarith
  have c1 : 0 ≤ (yh - yl + 1) * (z - zl) := Int.mul_nonneg hny.le (by omega)
  have hin := flat_index_bounds (zh - zl + 1) (yh - yl + 1) (z - zl) (y - yl)
    (by omega) (by omega) (by omega) (by omega)
  have c2 : y - yl + (yh - yl + 1) * (z - zl) < (yh - yl + 1) * (zh - zl + 1) := by
    have := hin.2
    linarith
  have c3 : 0 ≤ y - yl + (yh - yl + 1) * (z - zl) := by omega
  have hout := flat_index_bounds ((yh - yl + 1) * (zh - zl + 1)) (xh - xl + 1)
    (y - yl + (yh - yl + 1) * (z - zl)) (x - xl) c3 c2 (by omega) (by omega)
  have c4 : 0 ≤ (xh - xl + 1) * (y - yl + (yh - yl + 1) * (z - zl)) :=
    Int.mul_nonneg hnx.le c3
  have c5 : x - xl + (xh - xl + 1) * (y - yl + (yh - yl + 1) * (z - zl))
      < (xh - xl + 1) * (yh - yl + 1) * (zh - zl + 1) := by
    have := hout.2
    linarith
  unfold INDEX_FORTRAN_3
  rw [wrap32_of_range (z - zl) (by omega) (by omega),
    wrap32_of_range (yh - yl) (by omega) (by omega),
    wrap32_of_range (yh - yl + 1) (by omega) (by omega),
    wrap32_of_range ((yh - yl + 1) * (z - zl)) (by omega) (by omega),
    wrap32_of_range (y - yl) (by omega) (by omega),
    wrap32_of_range (y - yl + (yh - yl + 1) * (z - zl)) (by omega) (by omega),
    wrap32_of_range (xh - xl) (by omega) (by omega),
    wrap32_of_range (xh - xl + 1) (by omega) (by omega),
    wrap32_of_range ((xh - xl + 1) * (y - yl + (yh - yl + 1) * (z - zl))) (by omega) (by omega),
    wrap32_of_range (x - xl) (by omega) (by omega),
    wrap32_of_range _ (by omega) (by omega)]

/-- C20, counterexample: in the box `[0, 65535] x [0, 65535] x [0, 2]` of `3 * 2^32` cells
the triples `(0, 0, 0)` and `(0, 0, 2)` have the same index `0`: the product of the
extents wraps. -/
theorem INDEX_FORTRAN_3_collision :
    INDEX_FORTRAN_3 0 0 0 0 65535 0 65535 0 2 = 0 ∧
    INDEX_FORTRAN_3 0 0 2 0 65535 0 65535 0 2 = 0 ∧
    ((0 : Int), (0 : Int), (0 : Int)) ≠ ((0 : Int), (0 : Int), (2 : Int)) := by
  refine ⟨by decide, by decide, by decide⟩

/-- C20, amended: for all bounds `xl <= xh`, `yl <= yh`, `zl <= zh` of a box of fewer than
`2^31` cells, `INDEX_FORTRAN_3` maps the triples of the box one-to-one onto
`[0, (xh-xl+1)*(yh-yl+1)*(zh-zl+1))`: every image is in the range, two triples of the box
with the same image are equal, and every index of the range is the image of a triple of
the box; `x` varies fastest (inside the box a step in `x` moves the index by `1`, a step
in `y` by the extent in `x`, a step in `z` by the product of the extents in `x` and
`y`); and `INDEX_C_3(x,y,z,xl,xh,yl,yh,zl,zh)` equals
`INDEX_FORTRAN_3(z,y,x,zl,zh,yl,yh,xl,xh)` for all operands. -/
theorem INDEX_FORTRAN_3_bijection (xl xh yl yh zl zh : Int)
    (hx : xl ≤ xh) (hy : yl ≤ yh) (hz : zl ≤ zh)
    (hcells : (xh - xl + 1) * (yh - yl + 1) * (zh - zl + 1) < 2 ^ 31) :
    (∀ x y z, xl ≤ x → x ≤ xh → yl ≤ y → y ≤ yh → zl ≤ z → z ≤ zh →
      0 ≤ INDEX_FORTRAN_3 x y z xl xh yl yh zl zh ∧
      INDEX_FORTRAN_3 x y z xl xh yl yh zl zh
        < (xh - xl + 1) * (yh - yl + 1) * (zh - zl + 1)) ∧
    (∀ x y z x' y' z', xl ≤ x → x ≤ xh → yl ≤ y → y ≤ yh → zl ≤ z → z ≤ zh →
      xl ≤ x' → x' ≤ xh → yl ≤ y' → y' ≤ yh → zl ≤ z' → z' ≤ zh →
      INDEX_FORTRAN_3 x y z xl xh yl yh zl zh = INDEX_FORTRAN_3 x' y' z' xl xh yl yh zl zh →
      x = x' ∧ y = y' ∧ z = z') ∧
    (∀ k, 0 ≤ k → k < (xh - xl + 1) * (yh - yl + 1) * (zh - zl + 1) →
      ∃ x y z, xl ≤ x ∧ x ≤ xh ∧ yl ≤ y ∧ y ≤ yh ∧ zl ≤ z ∧ z ≤ zh ∧
        INDEX_FORTRAN_3 x y z xl xh yl yh zl zh = k) ∧
    (∀ x y z, xl ≤ x → x ≤ xh → yl ≤ y → y ≤ yh → zl ≤ z → z ≤ zh →
      (x + 1 ≤ xh → INDEX_FORTRAN_3 (x + 1) y z xl xh yl yh zl zh
        = INDEX_FORTRAN_3 x y z xl xh yl yh zl zh + 1) ∧
      (y + 1 ≤ yh → INDEX_FORTRAN_3 x (y + 1) z xl xh yl yh zl zh
        = INDEX_FORTRAN_3 x y z xl xh yl yh zl zh + (xh - xl + 1)) ∧
      (z + 1 ≤ zh → INDEX_FORTRAN_3 x y (z + 1) xl xh yl yh zl zh
        = INDEX_FORTRAN_3 x y z xl xh yl yh zl zh + (xh - xl + 1) * (yh - yl + 1))) ∧
    (∀ x y z xl' xh' yl' yh' zl' zh', INDEX_C_3 x y z xl' xh' yl' yh' zl' zh'
      = INDEX_FORTRAN_3 z y x zl' zh' yl' yh' xl' xh') := by
  have hnx : 0 < xh - xl + 1 := by omega
  have hny : 0 < yh - yl + 1 := by omega
  have hnz : 0 < zh - zl + 1 := by omega
  refine ⟨?_, ?_, ?_, ?_, ?_⟩
  · intro x y z h1 h2 h3 h4 h5 h6
    rw [INDEX_FORTRAN_3_exact x y z xl xh yl yh zl zh hcells h1 h2 h3 h4 h5 h6]
    have hin := flat_index_bounds (zh - zl + 1) (yh - yl + 1) (z - zl) (y - yl)
      (by omega) (by omega) (by omega) (by omega)
    have hin' : 0 ≤ y - yl + (yh - yl + 1) * (z - zl) ∧
        y - yl + (yh - yl + 1) * (z - zl) < (yh - yl + 1) * (zh - zl + 1) := by
      constructor <;> linarith [hin.1, hin.2]
    have hout := flat_index_bounds ((yh - yl + 1) * (zh - zl + 1)) (xh - xl + 1)
      (y - yl + (yh - yl + 1) * (z - zl)) (x - xl) hin'.1 hin'.2 (by omega) (by omega)
    constructor <;> linarith [hout.1, hout.2]
  · intro x y z x' y' z' h1 h2 h3 h4 h5 h6 h1' h2' h3' h4' h5' h6' h
    rw [INDEX_FORTRAN_3_exact x y z xl xh yl yh zl zh hcells h1 h2 h3 h4 h5 h6,
      INDEX_FORTRAN_3_exact x' y' z' xl xh yl yh zl zh hcells h1' h2' h3' h4' h5' h6'] at h
    have ha := base_digits_unique (xh - xl + 1) (y - yl + (yh - yl + 1) * (z - zl))
      (y' - yl + (yh - yl + 1) * (z' - zl)) (x - xl) (x' - xl) (by omega) (by omega)
      (by omega) (by omega) (by linarith)
    have hb := base_digits_unique (yh - yl + 1) (z - zl) (z' - zl) (y - yl) (y' - yl)
      (by omega) (by omega) (by omega) (by omega) (by linarith)
    have hzz : z = z' := by omega
    subst hzz
    have hyy : y = y' := by omega
    subst hyy
    exact ⟨by omega, rfl, rfl⟩
  · intro k hk0 hk
    have hX0 := Int.emod_nonneg k (by omega : xh - xl + 1 ≠ 0)
    have hX1 := Int.emod_lt_of_pos k hnx
    have hA0 : 0 ≤ k / (xh - xl + 1) := Int.ediv_nonneg hk0 hnx.le
    have hA1 : k / (xh - xl + 1) < (yh - yl + 1) * (zh - zl + 1) :=
      Int.ediv_lt_of_lt_mul hnx (by linarith)
    have hY0 := Int.emod_nonneg (k / (xh - xl + 1)) (by omega : yh - yl + 1 ≠ 0)
    have hY1 := Int.emod_lt_of_pos (k / (xh - xl + 1)) hny
    have hZ0 : 0 ≤ k / (xh - xl + 1) / (yh - yl + 1) := Int.ediv_nonneg hA0 hny.le
    have hZ1 : k / (xh - xl + 1) / (yh - yl + 1) < zh - zl + 1 :=
      Int.ediv_lt_of_lt_mul hny (by linarith)
    refine ⟨xl + k % (xh - xl + 1), yl + k / (xh - xl + 1) % (yh - yl + 1),
      zl + k / (xh - xl + 1) / (yh - yl + 1),
      by omega, by omega, by omega, by omega, by omega, by omega, ?_⟩
    rw [INDEX_FORTRAN_3_exact _ _ _ xl xh yl yh zl zh hcells (by omega) (by omega) (by omega)
      (by omega) (by omega) (by omega)]
    have e1 := Int.emod_add_ediv k (xh - xl + 1)
    have e2 := Int.emod_add_ediv (k / (xh - xl + 1)) (yh - yl + 1)
    have e3 : yl + k / (xh - xl + 1) % (yh - yl + 1) - yl
        + (yh - yl + 1) * (zl + k / (xh - xl + 1) / (yh - yl + 1) - zl)
        = k / (xh - xl + 1) := by linarith
    rw [e3]
    linarith
  · intro x y z h1 h2 h3 h4 h5 h6
    have e0 := INDEX_FORTRAN_3_exact x y z xl xh yl yh zl zh hcells h1 h2 h3 h4 h5 h6
    refine ⟨?_, ?_, ?_⟩
    · intro h
      rw [e0, INDEX_FORTRAN_3_exact (x + 1) y z xl xh yl yh zl zh hcells (by omega) h h3 h4
        h5 h6]
      ring
    · intro h
      rw [e0, INDEX_FORTRAN_3_exact x (y + 1) z xl xh yl yh zl zh hcells h1 h2 (by omega) h
        h5 h6]
      ring
    · intro h
      rw [e0, INDEX_FORTRAN_3_exact x y (z + 1) xl xh yl yh zl zh hcells h1 h2 h3 h4
        (by omega) h]
      ring
  · intro x y z xl' xh' yl' yh' zl' zh'
    rfl

/-- Witness of C20 on the box `[1, 3] x [0, 1] x [-1, 0]` of twelve triples. -/
theorem INDEX_FORTRAN_3_bijection_witness :
    (1 : Int) ≤ 3 ∧ (0 : Int) ≤ 1 ∧ (-1 : Int) ≤ 0 ∧
    ((3 : Int) - 1 + 1) * (1 - 0 + 1) * (0 - -1 + 1) < 2 ^ 31 ∧
    (∀ k : Int, 0 ≤ k → k < (3 - 1 + 1) * (1 - 0 + 1) * (0 - -1 + 1) →
      ∃ x y z, 1 ≤ x ∧ x ≤ 3 ∧ 0 ≤ y ∧ y ≤ 1 ∧ -1 ≤ z ∧ z ≤ 0 ∧
        INDEX_FORTRAN_3 x y z 1 3 0 1 (-1) 0 = k) :=
  ⟨by decide, by decide, by decide, by decide,
    (INDEX_FORTRAN_3_bijection 1 3 0 1 (-1) 0 (by decide) (by decide) (by decide)
      (by decide)).2.2.1⟩

end Vpic
